import Mathlib

/-!
# deeployer: a verification development

A shallow embedding of the deployment pipeline of `deeployer`
(`cmd/deploy.go`, `internal/executor`, `internal/rsync`, `internal/ssh`,
`internal/config`) together with the parts of the Go standard library the
pipeline relies on (`strings`, `path/filepath` on a Unix target).

Go strings are modelled by `String`; every string function is defined on the
underlying character list.  All effects (printing, process spawning,
filesystem probes, network connections) are recorded in an explicit trace of
`Event`s, and the answers of the outside world are given by a `World` whose
oracles may depend on the whole history so far.
-/

set_option autoImplicit false

deriving instance DecidableEq for Except

namespace Deeployer

/-! ## Package `strings` -/

/-- Go `strings.HasPrefix(s, p)`. -/
def stringsHasPrefix (s p : String) : Bool :=
  p.data.isPrefixOf s.data

/-- Go `strings.HasSuffix(s, p)`. -/
def stringsHasSuffix (s p : String) : Bool :=
  p.data.isSuffixOf s.data

/-- Occurrence test on character lists: `sub` starts at some position of `s`. -/
def containsChars (sub : List Char) : List Char → Bool
  | [] => sub.isPrefixOf []
  | c :: cs => sub.isPrefixOf (c :: cs) || containsChars sub cs

/-- Go `strings.Contains(s, sub)`. -/
def stringsContains (s sub : String) : Bool :=
  containsChars sub.data s.data

/-- Go `strings.Join(elems, sep)`. -/
def stringsJoin (elems : List String) (sep : String) : String :=
  ⟨List.intercalate sep.data (elems.map String.data)⟩

/-- Go `unicode.IsSpace`: the white-space code points. -/
def isSpace (c : Char) : Bool :=
  let n := c.toNat
  n = 0x20 || (0x09 ≤ n && n ≤ 0x0D) || n = 0x85 || n = 0xA0 || n = 0x1680 ||
    (0x2000 ≤ n && n ≤ 0x200A) || n = 0x2028 || n = 0x2029 || n = 0x202F ||
    n = 0x205F || n = 0x3000

/-- Go `strings.Fields(s)`: the maximal runs of non-space characters. -/
def stringsFields (s : String) : List String :=
  ((s.data.splitOnP isSpace).filter (fun f => !f.isEmpty)).map String.mk

/-! ## Package `path/filepath` (Unix) -/

/-- The path separator of the target. -/
def Separator : Char := '/'

/-- The elements of a path: the pieces between separators (possibly empty). -/
def pathElements (path : List Char) : List (List Char) :=
  path.splitOn Separator

/-- The output buffer of `filepath.Clean`, seen element-wise: `out` holds the
elements written so far (last written first) and `dotdot` is the number of
leading elements a `..` may not remove (Go keeps the byte index `dotdot`). -/
structure CleanBuf where
  out : List (List Char)
  dotdot : Nat
  deriving DecidableEq, Repr

/-- One iteration of the loop of `filepath.Clean`, on the next path element:
an empty element and `.` are skipped, `..` backtracks when `out.w > dotdot`,
is appended when the path is not rooted, and is dropped otherwise; any other
element is appended. -/
def cleanStep (rooted : Bool) (b : CleanBuf) (e : List Char) : CleanBuf :=
  if e = [] then b
  else if e = ['.'] then b
  else if e = ['.', '.'] then
    if b.out.length > b.dotdot then { b with out := b.out.tail }
    else if !rooted then { out := e :: b.out, dotdot := b.out.length + 1 }
    else b
  else { b with out := e :: b.out }

/-- The loop of `filepath.Clean` over all elements of the path. -/
def cleanLoop (rooted : Bool) (b : CleanBuf) (es : List (List Char)) : CleanBuf :=
  es.foldl (cleanStep rooted) b

/-- The string held by the buffer of `filepath.Clean` at the end of the loop. -/
def cleanRender (rooted : Bool) (b : CleanBuf) : List Char :=
  if rooted then Separator :: List.intercalate [Separator] b.out.reverse
  else if b.out = [] then ['.']
  else List.intercalate [Separator] b.out.reverse

/-- Go `filepath.Clean` on character lists. -/
def cleanChars (path : List Char) : List Char :=
  if path = [] then ['.']
  else
    let rooted := path.head? = some Separator
    cleanRender rooted (cleanLoop rooted ⟨[], 0⟩ (pathElements path))

/-- Go `filepath.Clean(path)`. -/
def Clean (path : String) : String :=
  ⟨cleanChars path.data⟩

/-- Go `filepath.Join(elem...)`: the elements from the first non-empty one on
are joined with the separator and cleaned; the result is empty when every
element is empty. -/
def Join (elem : List String) : String :=
  match elem.dropWhile (fun e => e = "") with
  | [] => ""
  | rest => Clean (stringsJoin rest "/")

/-- Go `filepath.IsAbs(path)` on Unix. -/
def IsAbs (path : String) : Bool :=
  stringsHasPrefix path "/"

/-- Go `filepath.Abs(path)` on Unix; `cwd` is the answer of `os.Getwd`
(an error when it fails). -/
def Abs (cwd : Except String String) (path : String) : Except String String :=
  if IsAbs path then .ok (Clean path)
  else
    match cwd with
    | .error err => .error err
    | .ok wd => .ok (Join [wd, path])

/-! ## The outside world -/

/-- A parsed private key (`ssh.Signer`), identified by the key material. -/
structure Signer where
  key : String
  deriving DecidableEq, Repr

/-- The authentication methods the program builds (`ssh.AuthMethod`). -/
inductive AuthMethod where
  /-- The method `ssh.PublicKeysCallback(agent.NewClient(conn).Signers)`. -/
  | agent (sock : String)
  /-- The method `ssh.PublicKeys(signer)`. -/
  | publicKeys (signer : Signer)
  deriving DecidableEq, Repr

/-- The host-key policies the program installs (`ssh.HostKeyCallback`). -/
inductive HostKeyCallback where
  /-- The policy `ssh.InsecureIgnoreHostKey()`. -/
  | insecureIgnoreHostKey
  /-- The policy `knownhosts.New(path)`. -/
  | knownHosts (path : String)
  deriving DecidableEq, Repr

/-- The transport configuration (`ssh.ClientConfig`). -/
structure ClientConfig where
  User : String
  Auth : List AuthMethod
  HostKeyCallback : HostKeyCallback
  deriving DecidableEq, Repr

/-- The answer of `os.Stat`, as far as the program looks at it. -/
inductive StatResult where
  | found
  | notExist
  | failed (err : String)
  deriving DecidableEq, Repr

/-- The observable actions of the program on the outside world. -/
inductive Event where
  /-- A line written to standard output (`fmt.Printf`, `fmt.Println`). -/
  | print (text : String)
  /-- A search of the executable path (`exec.LookPath`). -/
  | lookPath (file : String)
  /-- An external process (`exec.Command(name, args...)` run in `dir`). -/
  | spawn (name : String) (args : List String) (dir : String)
  /-- A filesystem probe (`os.Stat`). -/
  | stat (path : String)
  /-- A file read (`os.ReadFile`, `knownhosts.New`). -/
  | readFile (path : String)
  /-- A connection to the agent socket (`net.Dial("unix", sock)`). -/
  | dialUnix (sock : String)
  /-- A connection to a remote host (`ssh.Dial("tcp", address, config)`). -/
  | sshDial (address : String) (config : ClientConfig)
  /-- A new session on the open connection (`client.NewSession`). -/
  | newSession
  /-- A command run on the remote host (`session.Run`). -/
  | sessionRun (command : String)
  /-- The end of a session (`session.Close`). -/
  | sessionClose
  /-- The end of the connection (`client.Close`). -/
  | clientClose
  deriving DecidableEq, Repr

/-- The history of a run. -/
abbrev Trace := List Event

/-- The outside world.  The working directory, the home directory and the
environment are fixed for the run; every other answer may depend on all that
happened before (the trace). A Go `error` is an `Option String`: `none` is
`nil`, `some msg` an error with that text. -/
structure World where
  /-- The answer of `os.Getwd`. -/
  cwd : Except String String
  /-- The answer of `os.UserHomeDir`. -/
  homeDir : Except String String
  /-- The value of `os.Getenv("SSH_AUTH_SOCK")`. -/
  authSock : String
  /-- The error of `exec.LookPath(file)`. -/
  lookPath : Trace → String → Option String
  /-- The error of running `name args...` in `dir`. -/
  run : Trace → String → List String → String → Option String
  /-- The answer of `os.Stat(path)`. -/
  stat : Trace → String → StatResult
  /-- The answer of `os.ReadFile(path)`. -/
  readFile : Trace → String → Except String String
  /-- The library function `ssh.ParsePrivateKey`. -/
  parsePrivateKey : String → Except String Signer
  /-- The error of `knownhosts.New(path)`. -/
  knownHostsNew : Trace → String → Option String
  /-- Whether `net.Dial("unix", sock)` connects. -/
  dialUnix : Trace → String → Bool
  /-- The error of `ssh.Dial("tcp", address, config)`. -/
  sshDial : Trace → String → ClientConfig → Option String
  /-- The error of `client.NewSession()`. -/
  newSession : Trace → Option String
  /-- The error of `session.Run(command)`. -/
  sessionRun : Trace → String → Option String

/-- A conditional `fmt.Printf`: the idiom `if cond then print`. -/
def printIf (cond : Bool) (text : String) (t : Trace) : Trace :=
  if cond then t ++ [Event.print text] else t

/-! ## Package `internal/executor` -/

/-- The struct `executor.Executor`. -/
structure Executor where
  DryRun : Bool
  Verbose : Bool
  deriving DecidableEq, Repr

/-- The method `(*Executor).executeCommand`. -/
def Executor.executeCommand (w : World) (e : Executor) (command workDir : String)
    (t : Trace) : Trace × Option String :=
  let t := printIf (e.Verbose || e.DryRun) ("Executing: " ++ command ++ "\n") t
  if e.DryRun then (t, none)
  else
    match stringsFields command with
    | [] => (t, some "empty command")
    | name :: args => (t ++ [Event.spawn name args workDir], w.run t name args workDir)

/-- The method `(*Executor).ExecuteCommands`: the loop over the commands. -/
def Executor.ExecuteCommands (w : World) (e : Executor) :
    List String → String → Trace → Trace × Option String
  | [], _, t => (t, none)
  | command :: rest, workDir, t =>
    match e.executeCommand w command workDir t with
    | (t, some err) => (t, some ("command failed: " ++ command ++ ": " ++ err))
    | (t, none) => Executor.ExecuteCommands w e rest workDir t

/-- The method `(*Executor).CheckOutputDir`. -/
def Executor.CheckOutputDir (w : World) (e : Executor) (outputDir : String)
    (t : Trace) : Trace × Option String :=
  let t := printIf e.Verbose ("Checking output directory: " ++ outputDir ++ "\n") t
  if w.stat t outputDir = StatResult.notExist then
    (t ++ [Event.stat outputDir], some ("output directory does not exist: " ++ outputDir))
  else (t ++ [Event.stat outputDir], none)

/-! ## Package `internal/rsync` -/

/-- The struct `rsync.Client`. -/
structure RsyncClient where
  DryRun : Bool
  Verbose : Bool
  deriving DecidableEq, Repr

/-- The method `(*Client).ensureTrailingSlash`. -/
def RsyncClient.ensureTrailingSlash (_c : RsyncClient) (path : String) : String :=
  if !stringsHasSuffix path "/" then path ++ "/" else path

/-- The method `(*Client).buildRsyncArgs`; `args` is built by successive
appends as in the source. -/
def RsyncClient.buildRsyncArgs (c : RsyncClient)
    (localPath remoteUser remoteHost remotePath : String) (options : List String) :
    List String :=
  let args : List String := []
  let args := args ++ options
  let args := if c.DryRun then args ++ ["--dry-run"] else args
  let args := if c.Verbose then args ++ ["--verbose"] else args
  let localPath := c.ensureTrailingSlash localPath
  let args := args ++ [localPath]
  let remote := remoteUser ++ "@" ++ remoteHost ++ ":" ++ remotePath
  let args := args ++ [remote]
  args

/-- The method `(*Client).validatePaths`. -/
def RsyncClient.validatePaths (w : World) (_c : RsyncClient) (localPath : String)
    (t : Trace) : Trace × Option String :=
  match Abs w.cwd localPath with
  | .error err => (t, some ("invalid local path: " ++ err))
  | .ok absPath =>
    if w.stat t absPath = StatResult.notExist then
      (t ++ [Event.stat absPath], some ("local path does not exist: " ++ absPath))
    else (t ++ [Event.stat absPath], none)

/-- The method `(*Client).Sync`. -/
def RsyncClient.Sync (w : World) (c : RsyncClient)
    (localPath remoteUser remoteHost remotePath : String) (options : List String)
    (t : Trace) : Trace × Option String :=
  match c.validatePaths w localPath t with
  | (t, some err) => (t, some err)
  | (t, none) =>
    let args := c.buildRsyncArgs localPath remoteUser remoteHost remotePath options
    let t := printIf (c.Verbose || c.DryRun)
      ("Executing: rsync " ++ stringsJoin args " " ++ "\n") t
    if c.DryRun then (t, none)
    else (t ++ [Event.spawn "rsync" args ""], w.run t "rsync" args "")

/-- The method `(*Client).CheckRsyncAvailable`. -/
def RsyncClient.CheckRsyncAvailable (w : World) (c : RsyncClient) (t : Trace) :
    Trace × Option String :=
  if c.DryRun then (t, none)
  else
    match w.lookPath t "rsync" with
    | some err => (t ++ [Event.lookPath "rsync"], some ("rsync not found in PATH: " ++ err))
    | none => (t ++ [Event.lookPath "rsync"], none)

/-! ## Package `internal/ssh` -/

/-- The struct `ssh.Client` of the program (not the library connection). -/
structure SshClient where
  DryRun : Bool
  Verbose : Bool
  deriving DecidableEq, Repr

/-- The method `(*Client).getHostKeyCallback`. -/
def SshClient.getHostKeyCallback (w : World) (_c : SshClient) (t : Trace) :
    Trace × Except String HostKeyCallback :=
  match w.homeDir with
  | .error err => (t, .error err)
  | .ok homeDir =>
    let knownHostsPath := Join [homeDir, ".ssh", "known_hosts"]
    if w.stat t knownHostsPath = StatResult.notExist then
      (t ++ [Event.stat knownHostsPath], .ok HostKeyCallback.insecureIgnoreHostKey)
    else
      let t := t ++ [Event.stat knownHostsPath]
      match w.knownHostsNew t knownHostsPath with
      | some err => (t ++ [Event.readFile knownHostsPath], .error err)
      | none => (t ++ [Event.readFile knownHostsPath], .ok (HostKeyCallback.knownHosts knownHostsPath))

/-- The method `(*Client).getSSHAgent`; `none` is the nil method. -/
def SshClient.getSSHAgent (w : World) (_c : SshClient) (t : Trace) :
    Trace × Option AuthMethod :=
  if w.dialUnix t w.authSock then
    (t ++ [Event.dialUnix w.authSock], some (AuthMethod.agent w.authSock))
  else (t ++ [Event.dialUnix w.authSock], none)

/-- The method `(*Client).loadPrivateKey`. -/
def SshClient.loadPrivateKey (w : World) (_c : SshClient) (path : String) (t : Trace) :
    Trace × Except String Signer :=
  match w.readFile t path with
  | .error err => (t ++ [Event.readFile path], .error err)
  | .ok key => (t ++ [Event.readFile path], w.parsePrivateKey key)

/-- The loop of `(*Client).getPublicKeyAuth` over the key paths. -/
def SshClient.getPublicKeyAuthLoop (w : World) (c : SshClient) :
    List String → Trace → Trace × Except String AuthMethod
  | [], t => (t, .error "no private keys found")
  | keyPath :: rest, t =>
    match c.loadPrivateKey w keyPath t with
    | (t, .ok key) => (t, .ok (AuthMethod.publicKeys key))
    | (t, .error _) => SshClient.getPublicKeyAuthLoop w c rest t

/-- The key paths probed by `(*Client).getPublicKeyAuth`, in order. -/
def keyPaths (homeDir : String) : List String :=
  [Join [homeDir, ".ssh", "id_rsa"],
   Join [homeDir, ".ssh", "id_ed25519"],
   Join [homeDir, ".ssh", "id_ecdsa"]]

/-- The method `(*Client).getPublicKeyAuth`. -/
def SshClient.getPublicKeyAuth (w : World) (c : SshClient) (t : Trace) :
    Trace × Except String AuthMethod :=
  match w.homeDir with
  | .error err => (t, .error err)
  | .ok homeDir => c.getPublicKeyAuthLoop w (keyPaths homeDir) t

/-- The method `(*Client).getAuthMethods`. -/
def SshClient.getAuthMethods (w : World) (c : SshClient) (t : Trace) :
    Trace × Except String (List AuthMethod) :=
  let authMethods : List AuthMethod := []
  let (t, agentAuth) := c.getSSHAgent w t
  let authMethods :=
    match agentAuth with
    | some a => authMethods ++ [a]
    | none => authMethods
  let (t, keyAuth) := c.getPublicKeyAuth w t
  let authMethods :=
    match keyAuth with
    | .ok k => authMethods ++ [k]
    | .error _ => authMethods
  if authMethods.length = 0 then (t, .error "no authentication methods available")
  else (t, .ok authMethods)

/-- The method `(*Client).getSSHConfig`. -/
def SshClient.getSSHConfig (w : World) (c : SshClient) (user : String) (t : Trace) :
    Trace × Except String ClientConfig :=
  let config : ClientConfig :=
    { User := user, Auth := [], HostKeyCallback := HostKeyCallback.insecureIgnoreHostKey }
  let (t, hk) := c.getHostKeyCallback w t
  let config :=
    match hk with
    | .ok hostKeyCallback => { config with HostKeyCallback := hostKeyCallback }
    | .error _ => config
  match c.getAuthMethods w t with
  | (t, .error err) => (t, .error err)
  | (t, .ok authMethods) => (t, .ok { config with Auth := authMethods })

/-- The method `(*Client).connect`; success means an open connection. -/
def SshClient.connect (w : World) (c : SshClient) (host user : String) (t : Trace) :
    Trace × Option String :=
  match c.getSSHConfig w user t with
  | (t, .error err) => (t, some err)
  | (t, .ok config) =>
    let address := if stringsContains host ":" then host else host ++ ":22"
    (t ++ [Event.sshDial address config], w.sshDial t address config)

/-- The method `(*Client).executeCommand` on an open connection. -/
def SshClient.executeCommand (w : World) (c : SshClient) (command : String) (t : Trace) :
    Trace × Option String :=
  match w.newSession t with
  | some err => (t ++ [Event.newSession], some err)
  | none =>
    let t := t ++ [Event.newSession]
    let t := printIf c.Verbose ("Executing remote command: " ++ command ++ "\n") t
    (t ++ [Event.sessionRun command, Event.sessionClose], w.sessionRun t command)

/-- The command loop of `(*Client).ExecuteCommands` on an open connection. -/
def SshClient.ExecuteCommandsLoop (w : World) (c : SshClient) (host user : String) :
    List String → Trace → Trace × Option String
  | [], t => (t, none)
  | command :: rest, t =>
    match c.executeCommand w command t with
    | (t, some err) =>
      (t, some ("command failed on " ++ user ++ "@" ++ host ++ ": " ++ command ++ ": " ++ err))
    | (t, none) => SshClient.ExecuteCommandsLoop w c host user rest t

/-- The dry-run loop of `(*Client).ExecuteCommands`. -/
def SshClient.wouldExecute (host user : String) (commands : List String) : Trace :=
  commands.map (fun cmd =>
    Event.print ("Would execute on " ++ user ++ "@" ++ host ++ ": " ++ cmd ++ "\n"))

/-- The method `(*Client).ExecuteCommands`. -/
def SshClient.ExecuteCommands (w : World) (c : SshClient) (host user : String)
    (commands : List String) (t : Trace) : Trace × Option String :=
  if commands.length = 0 then (t, none)
  else if c.DryRun then (t ++ SshClient.wouldExecute host user commands, none)
  else
    match c.connect w host user t with
    | (t, some err) =>
      (t, some ("failed to connect to " ++ user ++ "@" ++ host ++ ": " ++ err))
    | (t, none) =>
      let (t, err) := c.ExecuteCommandsLoop w host user commands t
      (t ++ [Event.clientClose], err)

/-! ## Package `internal/config` -/

/-- The struct `config.Project`. -/
structure Project where
  Path : String
  BuildCommands : List String
  OutputDir : String
  PostCommands : List String
  Remotes : List String
  deriving DecidableEq, Repr

/-- The struct `config.Remote`. -/
structure Remote where
  Host : String
  Path : String
  User : String
  RsyncOptions : List String
  PostCommands : List String
  deriving DecidableEq, Repr

/-- The struct `config.Config`. A Go map is a list of bindings; a name is
looked up with `List.lookup` and a `range` loop visits the list in order
(any order of the list is a possible iteration order). -/
structure Config where
  Projects : List (String × Project)
  Remotes : List (String × Remote)
  deriving DecidableEq, Repr

/-- The method `(*Project).Validate`. -/
def Project.Validate (w : World) (p : Project) (t : Trace) : Trace × Option String :=
  if p.Path = "" then (t, some "project path not specified")
  else
    match Abs w.cwd p.Path with
    | .error err => (t, some ("invalid project path: " ++ err))
    | .ok absPath =>
      match w.stat t absPath with
      | StatResult.notExist =>
        (t ++ [Event.stat absPath], some ("project path does not exist: " ++ absPath))
      | StatResult.failed err =>
        (t ++ [Event.stat absPath], some ("cannot access project path: " ++ err))
      | StatResult.found =>
        let t := t ++ [Event.stat absPath]
        if p.BuildCommands.length = 0 then (t, some "no build commands defined")
        else if p.OutputDir = "" then (t, some "output directory not specified")
        else if p.Remotes.length = 0 then (t, some "no remotes specified")
        else (t, none)

/-- The method `(*Remote).Validate`. The receiver is a pointer: the first
component is the receiver after the call, the second the error. -/
def Remote.Validate (r : Remote) : Remote × Option String :=
  if r.Host = "" then (r, some "host not specified")
  else if r.Path = "" then (r, some "path not specified")
  else if r.User = "" then (r, some "user not specified")
  else if r.RsyncOptions.length = 0 then ({ r with RsyncOptions := ["-avz"] }, none)
  else (r, none)

/-- The inner loop of `(*Config).Validate` over the remotes of one project. -/
def Config.validateRefs (c : Config) (name : String) : List String → Option String
  | [] => none
  | remoteName :: rest =>
    match c.Remotes.lookup remoteName with
    | none => some ("project " ++ name ++ " references unknown remote: " ++ remoteName)
    | some _ => Config.validateRefs c name rest

/-- The first loop of `(*Config).Validate`, over the projects. -/
def Config.validateProjects (w : World) (c : Config) :
    List (String × Project) → Trace → Trace × Option String
  | [], t => (t, none)
  | (name, project) :: rest, t =>
    match project.Validate w t with
    | (t, some err) => (t, some ("project " ++ name ++ ": " ++ err))
    | (t, none) =>
      match c.validateRefs name project.Remotes with
      | some err => (t, some err)
      | none => Config.validateProjects w c rest t

/-- The second loop of `(*Config).Validate`, over the remotes. The loop
variable `remote` is a copy of the map value: `remote.Validate()` works on
that copy, whose state after the call is dropped with the iteration; the map
`c.Remotes` is not written. -/
def Config.validateRemotes : List (String × Remote) → Option String
  | [] => none
  | (name, remote) :: rest =>
    match remote.Validate with
    | (_, some err) => some ("remote " ++ name ++ ": " ++ err)
    | (_, none) => Config.validateRemotes rest

/-- The method `(*Config).Validate`. Nothing in it assigns to `c`, so the
configuration after the call is the one before it. -/
def Config.Validate (w : World) (c : Config) (t : Trace) : Trace × Option String :=
  if c.Projects.length = 0 then (t, some "no projects defined")
  else
    match c.validateProjects w c.Projects t with
    | (t, some err) => (t, some err)
    | (t, none) => (t, Config.validateRemotes c.Remotes)

/-! ## Package `cmd`: `deployProject` -/

/-- The path guard of `deployProject` (the statements between the build
commands and `CheckOutputDir`): the lexical check of `OutputDir`, `Join`,
`Clean`, the two calls of `Abs` and the comparison with `HasPrefix`. It
yields `outputPath`, or the error `deployProject` returns. -/
def outputPathGuard (cwd : Except String String) (project : Project) :
    Except String String :=
  if stringsContains project.OutputDir ".." then
    .error ("output directory contains directory traversal: " ++ project.OutputDir)
  else
    let outputPath := Join [project.Path, project.OutputDir]
    let outputPath := Clean outputPath
    match Abs cwd project.Path with
    | .error err => .error ("failed to get absolute project path: " ++ err)
    | .ok projectAbsPath =>
      match Abs cwd outputPath with
      | .error err => .error ("failed to get absolute output path: " ++ err)
      | .ok outputAbsPath =>
        if !stringsHasPrefix outputAbsPath projectAbsPath then
          .error ("output directory is outside project directory: " ++ outputAbsPath)
        else .ok outputPath

/-- The function `deployProject`; `dryRun` and `verbose` are the package
variables set from the command-line flags, `t` the history before the call. -/
def deployProject (w : World) (dryRun verbose : Bool) (cfg : Config)
    (projectName : String) (project : Project) (remoteName : String) (t : Trace) :
    Trace × Option String :=
  let remoteAllowed := project.Remotes.contains remoteName
  if !remoteAllowed then
    (t, some ("remote '" ++ remoteName ++ "' is not allowed for project '" ++ projectName ++
      "'. Available remotes: " ++ stringsJoin project.Remotes ", "))
  else
    match cfg.Remotes.lookup remoteName with
    | none => (t, some ("remote '" ++ remoteName ++ "' not found in configuration"))
    | some remote =>
      let exec : Executor := { DryRun := dryRun, Verbose := verbose }
      let rsyncClient : RsyncClient := { DryRun := dryRun, Verbose := verbose }
      let sshClient : SshClient := { DryRun := dryRun, Verbose := verbose }
      let t := printIf verbose ("Deploying project: " ++ projectName ++ " (path: " ++
        project.Path ++ ") to remote: " ++ remoteName ++ "\n") t
      match rsyncClient.CheckRsyncAvailable w t with
      | (t, some err) => (t, some ("rsync check failed: " ++ err))
      | (t, none) =>
        let t := printIf verbose "Executing build commands...\n" t
        match exec.ExecuteCommands w project.BuildCommands project.Path t with
        | (t, some err) => (t, some ("build commands failed: " ++ err))
        | (t, none) =>
          match outputPathGuard w.cwd project with
          | .error err => (t, some err)
          | .ok outputPath =>
            match exec.CheckOutputDir w outputPath t with
            | (t, some err) => (t, some ("output directory check failed: " ++ err))
            | (t, none) =>
              let t := printIf verbose ("Syncing to remote: " ++ remoteName ++ "\n") t
              match rsyncClient.Sync w outputPath remote.User remote.Host remote.Path
                  remote.RsyncOptions t with
              | (t, some err) => (t, some ("rsync to " ++ remoteName ++ " failed: " ++ err))
              | (t, none) =>
                let (t, err) :=
                  if remote.PostCommands.length > 0 then
                    sshClient.ExecuteCommands w remote.Host remote.User remote.PostCommands
                      (printIf verbose
                        ("Executing post commands on remote: " ++ remoteName ++ "\n") t)
                  else (t, none)
                match err with
                | some err =>
                  (t, some ("remote post commands failed on " ++ remoteName ++ ": " ++ err))
                | none =>
                  let (t, err) :=
                    if project.PostCommands.length > 0 then
                      exec.ExecuteCommands w project.PostCommands project.Path
                        (printIf verbose "Executing local post commands...\n" t)
                    else (t, none)
                  match err with
                  | some err => (t, some ("local post commands failed: " ++ err))
                  | none =>
                    (t ++ [Event.print ("Successfully deployed " ++ projectName ++ " to " ++
                      remoteName ++ "\n")], none)

/-! ## Test scenarios -/

/-- A world in which everything succeeds: the tools are installed, every
command exits with status zero, every path exists, the agent answers and the
key files parse. -/
def happyWorld : World where
  cwd := .ok "/home/u"
  homeDir := .ok "/home/u"
  authSock := "/tmp/agent.sock"
  lookPath := fun _ _ => none
  run := fun _ _ _ _ => none
  stat := fun _ _ => StatResult.found
  readFile := fun _ path => .ok path
  parsePrivateKey := fun key => .ok ⟨key⟩
  knownHostsNew := fun _ _ => none
  dialUnix := fun _ _ => true
  sshDial := fun _ _ _ => none
  newSession := fun _ => none
  sessionRun := fun _ _ => none

/-- The remote `prod` of the scenarios; it leaves `rsync_options` unset. -/
def prodRemote : Remote :=
  { Host := "example.com", Path := "/remote/path", User := "user",
    RsyncOptions := [], PostCommands := ["systemctl reload nginx"] }

/-- The project `site` of the scenarios: `path=/app`, `outputDir=dist`,
`remotes: [prod]`. -/
def siteProject : Project :=
  { Path := "/app", BuildCommands := ["npm ci", "npm run build"], OutputDir := "dist",
    PostCommands := ["echo done"], Remotes := ["prod"] }

/-- The configuration of the scenarios. -/
def siteConfig : Config :=
  { Projects := [("site", siteProject)], Remotes := [("prod", prodRemote)] }

/-! ## Specification-level notions -/

/-- What reading and parsing the key file `path` gives at history `t`. -/
def keyAt (w : World) (t : Trace) (path : String) : Option Signer :=
  match w.readFile t path with
  | .ok key =>
    match w.parsePrivateKey key with
    | .ok signer => some signer
    | .error _ => none
  | .error _ => none

/-- The key the authentication chain offers according to the specification:
the first of `id_rsa`, `id_ed25519`, `id_ecdsa` under `~/.ssh` that parses,
each file being read after the earlier ones were tried; none when the home
directory is unknown. -/
def specFirstKey (w : World) (t : Trace) : Option Signer :=
  match w.homeDir with
  | .error _ => none
  | .ok home =>
    let rsa := Join [home, ".ssh", "id_rsa"]
    let ed := Join [home, ".ssh", "id_ed25519"]
    let ecdsa := Join [home, ".ssh", "id_ecdsa"]
    (keyAt w t rsa).orElse fun _ =>
      (keyAt w (t ++ [Event.readFile rsa]) ed).orElse fun _ =>
        keyAt w (t ++ [Event.readFile rsa, Event.readFile ed]) ecdsa

/-- The list the authentication chain offers according to the specification:
the agent method if the agent socket answers, then the key method if a key
parses. -/
def specAuthChain (w : World) (t : Trace) : List AuthMethod :=
  (if w.dialUnix t w.authSock then [AuthMethod.agent w.authSock] else []) ++
    (match specFirstKey w (t ++ [Event.dialUnix w.authSock]) with
     | some signer => [AuthMethod.publicKeys signer]
     | none => [])

/-- The events one call of `executeCommand` adds outside dry-run: the report
in verbose mode, then the process unless the command has no fields. -/
def Executor.commandEvents (e : Executor) (workDir command : String) : Trace :=
  (if e.Verbose then [Event.print ("Executing: " ++ command ++ "\n")] else []) ++
    (match stringsFields command with
     | [] => []
     | name :: args => [Event.spawn name args workDir])

/-- The events of a list of commands attempted one after the other. -/
def Executor.commandsEvents (e : Executor) (workDir : String) : List String → Trace
  | [] => []
  | command :: rest => e.commandEvents workDir command ++ Executor.commandsEvents e workDir rest

/-- Every command of `cmds`, attempted after its predecessors from history
`t`, succeeds. -/
def Executor.allSucceed (w : World) (e : Executor) (workDir : String) (t : Trace)
    (cmds : List String) : Prop :=
  ∀ pre c post, cmds = pre ++ c :: post →
    (e.executeCommand w c workDir (t ++ e.commandsEvents workDir pre)).2 = none

/-! ## The pipeline as a list of stages -/

/-- The stages of a deployment, in the order of the specification. -/
inductive Stage where
  | eligibility
  | rsyncCheck
  | build
  | outputGuard
  | sync
  | postRemote
  | postLocal
  deriving DecidableEq, Repr

/-- The fixed sequence of stages. -/
def Stage.all : List Stage :=
  [Stage.eligibility, Stage.rsyncCheck, Stage.build, Stage.outputGuard, Stage.sync,
   Stage.postRemote, Stage.postLocal]

/-- The outcome of a pipeline run: the stages performed, in order, the
history at the end, and the error of the stage that failed, if one did. -/
structure PipelineResult where
  performed : List Stage
  trace : Trace
  err : Option String

/-- The interpreter of the specification for a list of steps: the steps run
in sequence, each on the history its predecessor left, and the run stops at
the first failure. -/
def runStages : List (Stage × (Trace → Trace × Option String)) → Trace → PipelineResult
  | [], t => { performed := [], trace := t, err := none }
  | (s, step) :: rest, t =>
    match step t with
    | (t, some err) => { performed := [s], trace := t, err := some err }
    | (t, none) =>
      let r := runStages rest t
      { r with performed := s :: r.performed }

/-- The stage that failed in a pipeline run, if one did. -/
def PipelineResult.failed (r : PipelineResult) : Option Stage :=
  match r.err with
  | none => none
  | some _ => r.performed.getLast?

/-- The remote `deployProject` works with once the eligibility check has
passed (`cfg.Remotes[remoteName]`; the zero value when the name is absent). -/
def deployRemote (cfg : Config) (remoteName : String) : Remote :=
  (cfg.Remotes.lookup remoteName).getD
    { Host := "", Path := "", User := "", RsyncOptions := [], PostCommands := [] }

/-- The value of `outputPath` in `deployProject` once the path guard has
passed. -/
def deployOutputPath (w : World) (project : Project) : String :=
  match outputPathGuard w.cwd project with
  | .ok outputPath => outputPath
  | .error _ => ""

/-- The statements of `deployProject` that make up each stage, as a step on
the history. -/
def deployStage (w : World) (dryRun verbose : Bool) (cfg : Config)
    (projectName : String) (project : Project) (remoteName : String) :
    Stage → Trace → Trace × Option String
  | Stage.eligibility, t =>
    if !project.Remotes.contains remoteName then
      (t, some ("remote '" ++ remoteName ++ "' is not allowed for project '" ++ projectName ++
        "'. Available remotes: " ++ stringsJoin project.Remotes ", "))
    else
      match cfg.Remotes.lookup remoteName with
      | none => (t, some ("remote '" ++ remoteName ++ "' not found in configuration"))
      | some _ => (t, none)
  | Stage.rsyncCheck, t =>
    match RsyncClient.CheckRsyncAvailable w { DryRun := dryRun, Verbose := verbose }
        (printIf verbose ("Deploying project: " ++ projectName ++ " (path: " ++
          project.Path ++ ") to remote: " ++ remoteName ++ "\n") t) with
    | (t, some err) => (t, some ("rsync check failed: " ++ err))
    | (t, none) => (t, none)
  | Stage.build, t =>
    match Executor.ExecuteCommands w { DryRun := dryRun, Verbose := verbose }
        project.BuildCommands project.Path
        (printIf verbose "Executing build commands...\n" t) with
    | (t, some err) => (t, some ("build commands failed: " ++ err))
    | (t, none) => (t, none)
  | Stage.outputGuard, t =>
    match outputPathGuard w.cwd project with
    | .error err => (t, some err)
    | .ok outputPath =>
      match Executor.CheckOutputDir w { DryRun := dryRun, Verbose := verbose } outputPath t with
      | (t, some err) => (t, some ("output directory check failed: " ++ err))
      | (t, none) => (t, none)
  | Stage.sync, t =>
    let remote := deployRemote cfg remoteName
    match RsyncClient.Sync w { DryRun := dryRun, Verbose := verbose }
        (deployOutputPath w project) remote.User remote.Host remote.Path remote.RsyncOptions
        (printIf verbose ("Syncing to remote: " ++ remoteName ++ "\n") t) with
    | (t, some err) => (t, some ("rsync to " ++ remoteName ++ " failed: " ++ err))
    | (t, none) => (t, none)
  | Stage.postRemote, t =>
    let remote := deployRemote cfg remoteName
    if remote.PostCommands.length > 0 then
      match SshClient.ExecuteCommands w { DryRun := dryRun, Verbose := verbose }
          remote.Host remote.User remote.PostCommands
          (printIf verbose ("Executing post commands on remote: " ++ remoteName ++ "\n") t) with
      | (t, some err) =>
        (t, some ("remote post commands failed on " ++ remoteName ++ ": " ++ err))
      | (t, none) => (t, none)
    else (t, none)
  | Stage.postLocal, t =>
    if project.PostCommands.length > 0 then
      match Executor.ExecuteCommands w { DryRun := dryRun, Verbose := verbose }
          project.PostCommands project.Path
          (printIf verbose "Executing local post commands...\n" t) with
      | (t, some err) => (t, some ("local post commands failed: " ++ err))
      | (t, none) => (t, none)
    else (t, none)

/-- The steps of a deployment: every stage of the fixed sequence with its
statements. -/
def deployStages (w : World) (dryRun verbose : Bool) (cfg : Config)
    (projectName : String) (project : Project) (remoteName : String) :
    List (Stage × (Trace → Trace × Option String)) :=
  Stage.all.map fun s => (s, deployStage w dryRun verbose cfg projectName project remoteName s)

/-- The end of `deployProject`: the error of the failed stage, or the success
line after the last stage. -/
def deployFinish (projectName remoteName : String) (r : PipelineResult) :
    Trace × Option String :=
  match r.err with
  | some err => (r.trace, some err)
  | none =>
    (r.trace ++ [Event.print ("Successfully deployed " ++ projectName ++ " to " ++
      remoteName ++ "\n")], none)

/-- A world in which the command `false` exits with a non-zero status and
every other command succeeds. -/
def failingWorld : World :=
  { happyWorld with
    run := fun _ name _ _ => if name = "false" then some "exit status 1" else none }

/-- The events that start or look for an external program: a spawned
process or a search of the executable path. -/
def Event.isProcess : Event → Bool
  | Event.spawn _ _ _ => true
  | Event.lookPath _ => true
  | _ => false

/-- The events on a connection: the agent socket, the remote host and the
sessions on it. -/
def Event.isNetwork : Event → Bool
  | Event.dialUnix _ => true
  | Event.sshDial _ _ => true
  | Event.newSession => true
  | Event.sessionRun _ => true
  | Event.sessionClose => true
  | Event.clientClose => true
  | _ => false

/-- The filesystem events: a probe or a file read. -/
def Event.isFilesystem : Event → Bool
  | Event.stat _ => true
  | Event.readFile _ => true
  | _ => false

/-- The events of the stages before the path guard: a printed line, the
search for `rsync`, or the process of a build command in the project path. -/
def buildPhaseEvent (project : Project) (ev : Event) : Prop :=
  (∃ s, ev = Event.print s) ∨ ev = Event.lookPath "rsync" ∨
    ∃ c ∈ project.BuildCommands, ∃ name args,
      stringsFields c = name :: args ∧ ev = Event.spawn name args project.Path

/-- The project `site` with an output directory that climbs out of the
project. -/
def escapingProject : Project :=
  { siteProject with OutputDir := "../secret" }

/-- The pipeline run that `deployProject` amounts to: the interpreter of the
specification on the stages of `deployProject`, from history `t`. -/
def deployRun (w : World) (dryRun verbose : Bool) (cfg : Config)
    (projectName : String) (project : Project) (remoteName : String) (t : Trace) :
    PipelineResult :=
  runStages (deployStages w dryRun verbose cfg projectName project remoteName) t

/-- A world in which the output directory `/app/dist` has not been built;
everything else is as in `happyWorld`. -/
def missingDirWorld : World :=
  { happyWorld with
    stat := fun _ path => if path = "/app/dist" then StatResult.notExist else StatResult.found }

/-- The history of a complete dry run, as the specification has it: the
planned steps in order (build commands, existence checks, the rsync command
line, remote post-commands, local post-commands, success line), with the
headers of verbose mode. -/
def dryRunReport (verbose : Bool) (projectName : String) (project : Project)
    (remoteName : String) (remote : Remote) (outputPath outputAbsPath : String) : Trace :=
  printIf verbose ("Deploying project: " ++ projectName ++ " (path: " ++
      project.Path ++ ") to remote: " ++ remoteName ++ "\n") [] ++
    printIf verbose "Executing build commands...\n" [] ++
    project.BuildCommands.map (fun c => Event.print ("Executing: " ++ c ++ "\n")) ++
    printIf verbose ("Checking output directory: " ++ outputPath ++ "\n") [] ++
    [Event.stat outputPath] ++
    printIf verbose ("Syncing to remote: " ++ remoteName ++ "\n") [] ++
    [Event.stat outputAbsPath] ++
    [Event.print ("Executing: rsync " ++
      stringsJoin (RsyncClient.buildRsyncArgs { DryRun := true, Verbose := verbose } outputPath
        remote.User remote.Host remote.Path remote.RsyncOptions) " " ++ "\n")] ++
    (if remote.PostCommands.length > 0 then
      printIf verbose ("Executing post commands on remote: " ++ remoteName ++ "\n") [] ++
        remote.PostCommands.map (fun cmd => Event.print
          ("Would execute on " ++ remote.User ++ "@" ++ remote.Host ++ ": " ++ cmd ++ "\n"))
     else []) ++
    (if project.PostCommands.length > 0 then
      printIf verbose "Executing local post commands...\n" [] ++
        project.PostCommands.map (fun c => Event.print ("Executing: " ++ c ++ "\n"))
     else []) ++
    [Event.print ("Successfully deployed " ++ projectName ++ " to " ++ remoteName ++ "\n")]

/-- A path element that names a file or directory: not empty, not `.` and
not `..`. -/
def isName (e : List Char) : Bool :=
  decide (e ≠ []) && decide (e ≠ ['.']) && decide (e ≠ ['.', '.'])

/-- The invariant of the buffer for a rooted path: nothing is protected and
every element written is a name without separator. -/
def RootedInv (b : CleanBuf) : Prop :=
  b.dotdot = 0 ∧ ∀ e ∈ b.out, isName e = true ∧ Separator ∉ e

/-- The general invariant of the buffer: the protected part lies within it. -/
def BufOk (b : CleanBuf) : Prop :=
  b.dotdot ≤ b.out.length

/-- The invariant of the buffer for a path that is not rooted: the protected
part is a run of `..` elements and above it are names without separator. -/
def RelInv (b : CleanBuf) : Prop :=
  ∃ names, b.out = names ++ List.replicate b.dotdot ['.', '.'] ∧
    ∀ e ∈ names, isName e = true ∧ Separator ∉ e

/-- The containment test of the specification: `p` is the root itself or the
root followed by a separator and further text; under the filesystem root `/`
that is every path starting with the separator. -/
def pathWithin (root p : String) : Bool :=
  decide (p = root) || stringsHasPrefix p (if root = "/" then root else root ++ "/")

/-- A project whose path is empty, as no validated configuration has it,
and whose output directory is an absolute path next to the working directory
`/et`. -/
def emptyPathProject : Project :=
  { Path := "", BuildCommands := ["make"], OutputDir := "/etc", PostCommands := [],
    Remotes := ["prod"] }

/-- A world in which the known-hosts file exists but cannot be loaded
(`knownhosts.New` fails); everything else is as in `happyWorld`. -/
def brokenKnownHostsWorld : World :=
  { happyWorld with
    knownHostsNew := fun _ _ => some "knownhosts: /home/u/.ssh/known_hosts:1: illegal base64 data" }

/-- A world in which the home directory cannot be resolved
(`os.UserHomeDir` fails); the agent still answers. -/
def noHomeWorld : World :=
  { happyWorld with homeDir := .error "$HOME is not defined" }

/-- The host-key policy in force after `getSSHConfig`, case by case: the
known-hosts policy when the home directory resolves, the probe of
`~/.ssh/known_hosts` does not report the file absent and `knownhosts.New`
loads it; unconditional acceptance in every other case. -/
def installedHostKeyPolicy (w : World) (t : Trace) : HostKeyCallback :=
  match w.homeDir with
  | .error _ => HostKeyCallback.insecureIgnoreHostKey
  | .ok home =>
    let path := Join [home, ".ssh", "known_hosts"]
    if w.stat t path = StatResult.notExist then HostKeyCallback.insecureIgnoreHostKey
    else
      match w.knownHostsNew (t ++ [Event.stat path]) path with
      | none => HostKeyCallback.knownHosts path
      | some _ => HostKeyCallback.insecureIgnoreHostKey

/-! # Theorems -/

/-! ## Evaluation of the library model on sample paths -/

example : Clean "/app/../x" = "/x" := by decide
example : Clean "a/../../b/./c//" = "../b/c" := by decide
example : Clean "" = "." := by decide
example : Clean "/.." = "/" := by decide
example : Clean "../../a/.." = "../.." := by decide
example : Join ["/app", "dist"] = "/app/dist" := by decide
example : Join ["", "/etc"] = "/etc" := by decide
example : Join ["/app", "/etc"] = "/app/etc" := by decide
example : Abs (.ok "/w") "app" = .ok "/w/app" := by decide
example : stringsFields "  go  build\t./... " = ["go", "build", "./..."] := by decide
example : stringsContains "a..b" ".." = true := by decide
example : stringsContains "a.b" ".." = false := by decide

/-! ## Helper lemmas -/

theorem commandsEvents_append (e : Executor) (workDir : String) (xs ys : List String) :
    e.commandsEvents workDir (xs ++ ys) =
      e.commandsEvents workDir xs ++ e.commandsEvents workDir ys := by
  induction xs with
  | nil => simp [Executor.commandsEvents]
  | cons x xs ih => simp [Executor.commandsEvents, ih]

theorem executeCommand_trace (w : World) (e : Executor) (command workDir : String) (t : Trace)
    (hdry : e.DryRun = false) :
    (e.executeCommand w command workDir t).1 = t ++ e.commandEvents workDir command := by
  unfold Executor.executeCommand Executor.commandEvents printIf
  simp only [hdry, Bool.or_false]
  cases e.Verbose <;> cases stringsFields command <;> simp

theorem allSucceed_cons (w : World) (e : Executor) (workDir : String) (t : Trace)
    (c : String) (cs : List String) :
    e.allSucceed w workDir t (c :: cs) ↔
      (e.executeCommand w c workDir t).2 = none ∧
        e.allSucceed w workDir (t ++ e.commandEvents workDir c) cs := by
  constructor
  · intro h
    refine ⟨?_, ?_⟩
    · simpa [Executor.commandsEvents] using h [] c cs rfl
    · intro pre x post hx
      have := h (c :: pre) x post (by simp [hx])
      simpa [Executor.commandsEvents, List.append_assoc] using this
  · rintro ⟨h1, h2⟩ pre x post hx
    cases pre with
    | nil =>
      simp at hx
      obtain ⟨rfl, rfl⟩ := hx
      simpa [Executor.commandsEvents] using h1
    | cons p pre =>
      simp at hx
      obtain ⟨rfl, rfl⟩ := hx
      have := h2 pre x post rfl
      simpa [Executor.commandsEvents, List.append_assoc] using this

theorem ExecuteCommands_cases (w : World) (e : Executor) (commands : List String)
    (workDir : String) (t : Trace) (hdry : e.DryRun = false) :
    (e.allSucceed w workDir t commands ∧
      e.ExecuteCommands w commands workDir t = (t ++ e.commandsEvents workDir commands, none)) ∨
    (∃ ran failing rest err, commands = ran ++ failing :: rest ∧
      e.allSucceed w workDir t ran ∧
      (e.executeCommand w failing workDir (t ++ e.commandsEvents workDir ran)).2 = some err ∧
      e.ExecuteCommands w commands workDir t =
        (t ++ e.commandsEvents workDir (ran ++ [failing]),
          some ("command failed: " ++ failing ++ ": " ++ err))) := by
  induction commands generalizing t with
  | nil =>
    left
    refine ⟨?_, by simp [Executor.ExecuteCommands, Executor.commandsEvents]⟩
    intro pre c post h; simp at h
  | cons c cs ih =>
    have htr := executeCommand_trace w e c workDir t hdry
    cases hres : (e.executeCommand w c workDir t).2 with
    | some err =>
      right
      refine ⟨[], c, cs, err, rfl, ?_, ?_, ?_⟩
      · intro pre x post h; simp at h
      · simpa [Executor.commandsEvents] using hres
      · rw [Executor.ExecuteCommands]
        generalize e.executeCommand w c workDir t = r at htr hres
        obtain ⟨t1, v⟩ := r
        simp only at htr hres
        subst htr hres
        simp [Executor.commandsEvents]
    | none =>
      have hstep : e.ExecuteCommands w (c :: cs) workDir t =
          e.ExecuteCommands w cs workDir (t ++ e.commandEvents workDir c) := by
        rw [Executor.ExecuteCommands]
        generalize e.executeCommand w c workDir t = r at htr hres
        obtain ⟨t1, v⟩ := r
        simp only at htr hres
        subst htr hres
        rfl
      rcases ih (t ++ e.commandEvents workDir c) with ⟨hall, heq⟩ | ⟨ran, failing, rest, err, hsplit, hall, hfail, heq⟩
      · left
        refine ⟨(allSucceed_cons w e workDir t c cs).2 ⟨hres, hall⟩, ?_⟩
        rw [hstep, heq]; simp [Executor.commandsEvents, List.append_assoc]
      · right
        refine ⟨c :: ran, failing, rest, err, by simp [hsplit], 
          (allSucceed_cons w e workDir t c ran).2 ⟨hres, hall⟩, ?_, ?_⟩
        · simpa [Executor.commandsEvents, List.append_assoc] using hfail
        · rw [hstep, heq]; simp [Executor.commandsEvents, List.append_assoc]

theorem getPublicKeyAuthLoop_some (w : World) (c : SshClient) (p : String) (ps : List String)
    (t : Trace) (s : Signer) (h : keyAt w t p = some s) :
    c.getPublicKeyAuthLoop w (p :: ps) t =
      (t ++ [Event.readFile p], .ok (AuthMethod.publicKeys s)) := by
  unfold keyAt at h
  simp only [SshClient.getPublicKeyAuthLoop, SshClient.loadPrivateKey]
  cases h1 : w.readFile t p with
  | error e => simp [h1] at h
  | ok key =>
    simp only [h1] at h ⊢
    cases h2 : w.parsePrivateKey key with
    | error e => simp [h2] at h
    | ok s2 => simp [h2] at h ⊢; exact h

theorem getPublicKeyAuthLoop_none (w : World) (c : SshClient) (p : String) (ps : List String)
    (t : Trace) (h : keyAt w t p = none) :
    c.getPublicKeyAuthLoop w (p :: ps) t =
      c.getPublicKeyAuthLoop w ps (t ++ [Event.readFile p]) := by
  unfold keyAt at h
  simp only [SshClient.getPublicKeyAuthLoop, SshClient.loadPrivateKey]
  cases h1 : w.readFile t p with
  | error e => simp
  | ok key =>
    simp only [h1] at h ⊢
    cases h2 : w.parsePrivateKey key with
    | error e => simp
    | ok s2 => simp [h2] at h

theorem getPublicKeyAuth_specFirstKey (w : World) (c : SshClient) (t : Trace) :
    match specFirstKey w t with
    | some s => (c.getPublicKeyAuth w t).2 = .ok (AuthMethod.publicKeys s)
    | none => ∃ e, (c.getPublicKeyAuth w t).2 = .error e := by
  unfold SshClient.getPublicKeyAuth specFirstKey keyPaths
  cases hh : w.homeDir with
  | error e => simp
  | ok home =>
    simp only
    cases k1 : keyAt w t (Join [home, ".ssh", "id_rsa"]) with
    | some s => simp [getPublicKeyAuthLoop_some _ _ _ _ _ _ k1]
    | none =>
      rw [getPublicKeyAuthLoop_none _ _ _ _ _ k1]
      cases k2 : keyAt w (t ++ [Event.readFile (Join [home, ".ssh", "id_rsa"])])
          (Join [home, ".ssh", "id_ed25519"]) with
      | some s => simp [getPublicKeyAuthLoop_some _ _ _ _ _ _ k2]
      | none =>
        rw [getPublicKeyAuthLoop_none _ _ _ _ _ k2]
        cases k3 : keyAt w (t ++ [Event.readFile (Join [home, ".ssh", "id_rsa"]),
            Event.readFile (Join [home, ".ssh", "id_ed25519"])])
            (Join [home, ".ssh", "id_ecdsa"]) with
        | some s =>
          simp only [List.append_assoc, List.singleton_append] at k3 ⊢
          simp [getPublicKeyAuthLoop_some _ _ _ _ _ _ k3, k3]
        | none =>
          simp only [List.append_assoc, List.singleton_append] at k3 ⊢
          rw [getPublicKeyAuthLoop_none _ _ _ _ _ k3]
          simp [SshClient.getPublicKeyAuthLoop, k3]

/-- Claim C10. `getAuthMethods` returns the agent method if the agent socket
answers, followed by one key method built from the first of `id_rsa`,
`id_ed25519`, `id_ecdsa` that parses: the agent method comes first when both
are there, at most one key is offered, and the call fails with the
no-authentication-method error exactly when the agent does not answer and no
key parses; it never succeeds with an empty list. -/
theorem getAuthMethods_chain (w : World) (c : SshClient) (t : Trace) :
    ((c.getAuthMethods w t).2 =
        if specAuthChain w t = [] then .error "no authentication methods available"
        else .ok (specAuthChain w t)) ∧
    (w.dialUnix t w.authSock = true →
      (specAuthChain w t).head? = some (AuthMethod.agent w.authSock)) ∧
    ((specAuthChain w t).filter (fun m => m ≠ AuthMethod.agent w.authSock)).length ≤ 1 ∧
    ((c.getAuthMethods w t).2 = .error "no authentication methods available" ↔
      (w.dialUnix t w.authSock = false ∧
        specFirstKey w (t ++ [Event.dialUnix w.authSock]) = none)) ∧
    (c.getAuthMethods w t).2 ≠ .ok [] := by
  have hk := getPublicKeyAuth_specFirstKey w c (t ++ [Event.dialUnix w.authSock])
  have key : (c.getAuthMethods w t).2 =
        if specAuthChain w t = [] then .error "no authentication methods available"
        else .ok (specAuthChain w t) := by
    unfold SshClient.getAuthMethods SshClient.getSSHAgent specAuthChain
    cases hd : w.dialUnix t w.authSock <;>
    cases hs : specFirstKey w (t ++ [Event.dialUnix w.authSock]) <;>
    simp only [hs] at hk <;> (try obtain ⟨e, hk⟩ := hk) <;> simp [hd, hk]
  refine ⟨key, ?_, ?_, ?_, ?_⟩
  · intro h; simp [specAuthChain, h]
  · unfold specAuthChain
    cases hd : w.dialUnix t w.authSock <;>
    cases hs : specFirstKey w (t ++ [Event.dialUnix w.authSock]) <;> simp [List.filter]
  · rw [key]; unfold specAuthChain
    cases hd : w.dialUnix t w.authSock <;>
    cases hs : specFirstKey w (t ++ [Event.dialUnix w.authSock]) <;> simp
  · rw [key]; split <;> simp_all

theorem deployProject_eq_pipeline (w : World) (dryRun verbose : Bool) (cfg : Config)
    (projectName : String) (project : Project) (remoteName : String) (t : Trace) :
    deployProject w dryRun verbose cfg projectName project remoteName t =
      deployFinish projectName remoteName
        (runStages (deployStages w dryRun verbose cfg projectName project remoteName) t) := by
  unfold deployProject deployStages Stage.all
  simp only [List.map, runStages, deployStage]
  cases hal : project.Remotes.contains remoteName with
  | false => simp [deployFinish]
  | true =>
  simp only [Bool.not_true, Bool.false_eq_true, if_false]
  cases hlk : cfg.Remotes.lookup remoteName with
  | none => simp [deployFinish]
  | some remote =>
    simp only [deployRemote, hlk, Option.getD_some]
    generalize RsyncClient.CheckRsyncAvailable w _ _ = r1
    obtain ⟨t1, _ | e1⟩ := r1
    swap
    · simp [deployFinish]
    simp only
    generalize Executor.ExecuteCommands w _ project.BuildCommands _ _ = r2
    obtain ⟨t2, _ | e2⟩ := r2
    swap
    · simp [deployFinish]
    simp only [deployOutputPath]
    cases hg : outputPathGuard w.cwd project with
    | error e => simp [deployFinish]
    | ok outputPath =>
      simp only
      generalize Executor.CheckOutputDir w _ _ _ = r3
      obtain ⟨t3, _ | e3⟩ := r3
      swap
      · simp [deployFinish]
      simp only
      generalize RsyncClient.Sync w _ _ _ _ _ _ _ = r4
      obtain ⟨t4, _ | e4⟩ := r4
      swap
      · simp [deployFinish]
      simp only
      by_cases hpr : remote.PostCommands.length > 0
      · simp only [hpr, if_true]
        generalize SshClient.ExecuteCommands w _ _ _ _ _ = r5
        obtain ⟨t5, _ | e5⟩ := r5
        swap
        · simp [deployFinish]
        simp only
        by_cases hpl : project.PostCommands.length > 0
        · simp only [hpl, if_true]
          generalize Executor.ExecuteCommands w _ project.PostCommands _ _ = r6
          obtain ⟨t6, _ | e6⟩ := r6 <;> simp [deployFinish]
        · simp [hpl, deployFinish]
      · simp only [hpr, if_false]
        by_cases hpl : project.PostCommands.length > 0
        · simp only [hpl, if_true]
          generalize Executor.ExecuteCommands w _ project.PostCommands _ _ = r6
          obtain ⟨t6, _ | e6⟩ := r6 <;> simp [deployFinish]
        · simp [hpl, deployFinish]

theorem printIf_all (Q : Event → Prop) (hp : ∀ s, Q (Event.print s)) (c : Bool) (s : String)
    (t : Trace) (ht : ∀ ev ∈ t, Q ev) : ∀ ev ∈ printIf c s t, Q ev := by
  unfold printIf
  cases c
  · simpa using ht
  · intro ev hev
    simp only [if_true, List.mem_append, List.mem_singleton] at hev
    rcases hev with h | rfl
    · exact ht ev h
    · exact hp s

theorem runStages_all (Q : Event → Prop)
    (steps : List (Stage × (Trace → Trace × Option String)))
    (hsteps : ∀ p ∈ steps, ∀ t, (∀ ev ∈ t, Q ev) → ∀ ev ∈ (p.2 t).1, Q ev)
    (t : Trace) (ht : ∀ ev ∈ t, Q ev) : ∀ ev ∈ (runStages steps t).trace, Q ev := by
  induction steps generalizing t with
  | nil => simpa [runStages] using ht
  | cons p rest ih =>
    obtain ⟨s, step⟩ := p
    have h1 : ∀ ev ∈ (step t).1, Q ev := hsteps (s, step) (by simp) t ht
    rw [runStages]
    generalize step t = r at h1
    obtain ⟨t1, _ | e⟩ := r
    · simp only at h1 ⊢
      exact ih (fun p hp => hsteps p (by simp [hp])) t1 h1
    · simpa using h1

theorem ExecuteCommands_dry_all (Q : Event → Prop) (hp : ∀ s, Q (Event.print s))
    (w : World) (e : Executor) (hdry : e.DryRun = true) (commands : List String)
    (workDir : String) (t : Trace) (ht : ∀ ev ∈ t, Q ev) :
    ∀ ev ∈ (e.ExecuteCommands w commands workDir t).1, Q ev := by
  induction commands generalizing t with
  | nil => simpa [Executor.ExecuteCommands] using ht
  | cons c cs ih =>
    rw [Executor.ExecuteCommands]
    simp only [Executor.executeCommand, hdry, if_true]
    exact ih _ (printIf_all Q hp _ _ t ht)

theorem ExecuteCommands_dry_ok (w : World) (e : Executor) (hdry : e.DryRun = true)
    (commands : List String) (workDir : String) (t : Trace) :
    e.ExecuteCommands w commands workDir t =
      (t ++ commands.map (fun c => Event.print ("Executing: " ++ c ++ "\n")), none) := by
  induction commands generalizing t with
  | nil => simp [Executor.ExecuteCommands]
  | cons c cs ih =>
    rw [Executor.ExecuteCommands]
    simp only [Executor.executeCommand, hdry, if_true]
    rw [ih]
    simp [printIf, hdry]

theorem CheckOutputDir_trace (w : World) (e : Executor) (outputDir : String) (t : Trace) :
    (e.CheckOutputDir w outputDir t).1 =
      printIf e.Verbose ("Checking output directory: " ++ outputDir ++ "\n") t ++
        [Event.stat outputDir] := by
  unfold Executor.CheckOutputDir
  simp only
  split <;> rfl

theorem Sync_dry_all (Q : Event → Prop) (hp : ∀ s, Q (Event.print s))
    (hs : ∀ s, Q (Event.stat s)) (w : World) (c : RsyncClient) (hdry : c.DryRun = true)
    (localPath remoteUser remoteHost remotePath : String) (options : List String)
    (t : Trace) (ht : ∀ ev ∈ t, Q ev) :
    ∀ ev ∈ (c.Sync w localPath remoteUser remoteHost remotePath options t).1, Q ev := by
  have hsnoc : ∀ (t : Trace) (p : String), (∀ ev ∈ t, Q ev) →
      ∀ ev ∈ t ++ [Event.stat p], Q ev := by
    intro t p h ev hev
    simp only [List.mem_append, List.mem_singleton] at hev
    rcases hev with h1 | rfl
    · exact h ev h1
    · exact hs p
  unfold RsyncClient.Sync RsyncClient.validatePaths
  cases Abs w.cwd localPath with
  | error e => simpa using ht
  | ok absPath =>
    simp only
    by_cases hst : w.stat t absPath = StatResult.notExist
    · simp only [hst, if_true]
      exact hsnoc t _ ht
    · simp only [hst, if_false, hdry, if_true]
      exact printIf_all Q hp _ _ _ (hsnoc t _ ht)

theorem SshExecuteCommands_dry_all (Q : Event → Prop) (hp : ∀ s, Q (Event.print s))
    (w : World) (c : SshClient) (hdry : c.DryRun = true) (host user : String)
    (commands : List String) (t : Trace) (ht : ∀ ev ∈ t, Q ev) :
    ∀ ev ∈ (c.ExecuteCommands w host user commands t).1, Q ev := by
  unfold SshClient.ExecuteCommands
  split
  · exact ht
  · simp only [hdry, if_true]
    intro ev hev
    simp only [List.mem_append, SshClient.wouldExecute, List.mem_map] at hev
    rcases hev with h | ⟨c, _, rfl⟩
    · exact ht ev h
    · exact hp _

theorem deployStage_dry_all (Q : Event → Prop) (hp : ∀ s, Q (Event.print s))
    (hs : ∀ s, Q (Event.stat s))
    (w : World) (verbose : Bool) (cfg : Config)
    (projectName : String) (project : Project) (remoteName : String) (s : Stage) (t : Trace)
    (ht : ∀ ev ∈ t, Q ev) :
    ∀ ev ∈ (deployStage w true verbose cfg projectName project remoteName s t).1, Q ev := by
  have hpi := printIf_all Q hp
  cases s with
  | eligibility =>
    simp only [deployStage]
    split
    · exact ht
    · split <;> exact ht
  | rsyncCheck =>
    simp only [deployStage, RsyncClient.CheckRsyncAvailable, if_true]
    exact hpi _ _ t ht
  | build =>
    simp only [deployStage]
    have key := ExecuteCommands_dry_all Q hp w ⟨true, verbose⟩ rfl project.BuildCommands
      project.Path _ (hpi verbose "Executing build commands...\n" t ht)
    split <;> rename_i heq <;> rw [heq] at key <;> exact key
  | outputGuard =>
    simp only [deployStage]
    split
    · exact ht
    · rename_i outputPath _
      have key : ∀ ev ∈ (Executor.CheckOutputDir w ⟨true, verbose⟩ outputPath t).1, Q ev := by
        rw [CheckOutputDir_trace]
        intro ev hev
        simp only [List.mem_append, List.mem_singleton] at hev
        rcases hev with h1 | rfl
        · exact hpi _ _ t ht ev h1
        · exact hs _
      split <;> rename_i heq <;> rw [heq] at key <;> exact key
  | sync =>
    simp only [deployStage]
    have key := Sync_dry_all Q hp hs w ⟨true, verbose⟩ rfl (deployOutputPath w project)
      (deployRemote cfg remoteName).User (deployRemote cfg remoteName).Host
      (deployRemote cfg remoteName).Path (deployRemote cfg remoteName).RsyncOptions _
      (hpi verbose ("Syncing to remote: " ++ remoteName ++ "\n") t ht)
    split <;> rename_i heq <;> rw [heq] at key <;> exact key
  | postRemote =>
    simp only [deployStage]
    split
    · have key := SshExecuteCommands_dry_all Q hp w ⟨true, verbose⟩ rfl
        (deployRemote cfg remoteName).Host (deployRemote cfg remoteName).User
        (deployRemote cfg remoteName).PostCommands _
        (hpi verbose ("Executing post commands on remote: " ++ remoteName ++ "\n") t ht)
      split <;> rename_i heq <;> rw [heq] at key <;> exact key
    · exact ht
  | postLocal =>
    simp only [deployStage]
    split
    · have key := ExecuteCommands_dry_all Q hp w ⟨true, verbose⟩ rfl project.PostCommands
        project.Path _ (hpi verbose "Executing local post commands...\n" t ht)
      split <;> rename_i heq <;> rw [heq] at key <;> exact key
    · exact ht

theorem runStages_append (xs ys : List (Stage × (Trace → Trace × Option String))) (t : Trace) :
    runStages (xs ++ ys) t =
      match (runStages xs t).err with
      | some _ => runStages xs t
      | none =>
        { performed := (runStages xs t).performed ++ (runStages ys (runStages xs t).trace).performed,
          trace := (runStages ys (runStages xs t).trace).trace,
          err := (runStages ys (runStages xs t).trace).err } := by
  induction xs generalizing t with
  | nil => simp [runStages]
  | cons p xs ih =>
    obtain ⟨s, step⟩ := p
    simp only [List.cons_append, runStages]
    cases hst : step t with
    | mk t1 r =>
      cases r with
      | some e => simp
      | none =>
        simp only [List.append_eq, ih t1]
        cases hx : (runStages xs t1).err <;> simp [hx]

theorem runStages_performed (steps : List (Stage × (Trace → Trace × Option String)))
    (t : Trace) :
    (runStages steps t).performed <+: steps.map Prod.fst ∧
    ((runStages steps t).err = none → (runStages steps t).performed = steps.map Prod.fst) ∧
    runStages (steps.take (runStages steps t).performed.length) t = runStages steps t ∧
    ∀ i, i < (runStages steps t).performed.length → (runStages (steps.take i) t).err = none := by
  induction steps generalizing t with
  | nil => simp [runStages]
  | cons p rest ih =>
    obtain ⟨s, step⟩ := p
    simp only [runStages, List.map]
    cases hst : step t with
    | mk t1 r =>
      cases r with
      | some e =>
        refine ⟨by simp [List.prefix_cons_inj, List.nil_prefix], by simp, ?_, ?_⟩
        · simp [runStages, hst]
        · intro i hi
          simp at hi
          subst hi
          simp [runStages]
      | none =>
        obtain ⟨h1, h2, h3, h4⟩ := ih t1
        refine ⟨?_, ?_, ?_, ?_⟩
        · simpa [List.prefix_cons_inj] using h1
        · intro he
          simp only at he ⊢
          rw [h2 he]
        · simp only [List.length_cons, List.take_succ_cons, runStages, hst]
          rw [h3]
        · intro i hi
          cases i with
          | zero => simp [runStages]
          | succ j =>
            simp only [List.length_cons, Nat.add_lt_add_iff_right] at hi
            simp only [List.take_succ_cons, runStages, hst]
            exact h4 j hi

theorem ExecuteCommands_all (Q : Event → Prop) (hp : ∀ s, Q (Event.print s))
    (w : World) (e : Executor) (commands : List String) (workDir : String)
    (hs : ∀ c ∈ commands, ∀ name args, stringsFields c = name :: args →
      Q (Event.spawn name args workDir))
    (t : Trace) (ht : ∀ ev ∈ t, Q ev) :
    ∀ ev ∈ (e.ExecuteCommands w commands workDir t).1, Q ev := by
  induction commands generalizing t with
  | nil => simpa [Executor.ExecuteCommands] using ht
  | cons c cs ih =>
    have hc : ∀ ev ∈ (e.executeCommand w c workDir t).1, Q ev := by
      unfold Executor.executeCommand
      simp only
      have h0 := printIf_all Q hp (e.Verbose || e.DryRun) ("Executing: " ++ c ++ "\n") t ht
      split
      · exact h0
      · split
        · exact h0
        · rename_i name args hf
          intro ev hev
          simp only [List.mem_append, List.mem_singleton] at hev
          rcases hev with h1 | rfl
          · exact h0 ev h1
          · exact hs c (by simp) name args hf
    rw [Executor.ExecuteCommands]
    split
    · rename_i heq
      rw [heq] at hc
      exact hc
    · rename_i heq
      rw [heq] at hc
      exact ih (fun c hc => hs c (by simp [hc])) _ hc

theorem CheckRsyncAvailable_all (Q : Event → Prop) (hl : Q (Event.lookPath "rsync"))
    (w : World) (c : RsyncClient) (t : Trace) (ht : ∀ ev ∈ t, Q ev) :
    ∀ ev ∈ (c.CheckRsyncAvailable w t).1, Q ev := by
  have hsnoc : ∀ ev ∈ t ++ [Event.lookPath "rsync"], Q ev := by
    intro ev hev
    simp only [List.mem_append, List.mem_singleton] at hev
    rcases hev with h1 | rfl
    · exact ht ev h1
    · exact hl
  unfold RsyncClient.CheckRsyncAvailable
  split
  · exact ht
  · split <;> exact hsnoc

theorem deployStages_split (w : World) (dryRun verbose : Bool) (cfg : Config)
    (projectName : String) (project : Project) (remoteName : String) :
    deployStages w dryRun verbose cfg projectName project remoteName =
      [(Stage.eligibility,
          deployStage w dryRun verbose cfg projectName project remoteName Stage.eligibility),
       (Stage.rsyncCheck,
          deployStage w dryRun verbose cfg projectName project remoteName Stage.rsyncCheck),
       (Stage.build,
          deployStage w dryRun verbose cfg projectName project remoteName Stage.build)] ++
      [(Stage.outputGuard,
          deployStage w dryRun verbose cfg projectName project remoteName Stage.outputGuard),
       (Stage.sync,
          deployStage w dryRun verbose cfg projectName project remoteName Stage.sync),
       (Stage.postRemote,
          deployStage w dryRun verbose cfg projectName project remoteName Stage.postRemote),
       (Stage.postLocal,
          deployStage w dryRun verbose cfg projectName project remoteName Stage.postLocal)] :=
  rfl

theorem buildPhase_all (w : World) (dryRun verbose : Bool) (cfg : Config)
    (projectName : String) (project : Project) (remoteName : String) (t : Trace)
    (ht : ∀ ev ∈ t, buildPhaseEvent project ev) :
    ∀ ev ∈ (runStages
      [(Stage.eligibility,
          deployStage w dryRun verbose cfg projectName project remoteName Stage.eligibility),
       (Stage.rsyncCheck,
          deployStage w dryRun verbose cfg projectName project remoteName Stage.rsyncCheck),
       (Stage.build,
          deployStage w dryRun verbose cfg projectName project remoteName Stage.build)] t).trace,
      buildPhaseEvent project ev := by
  have hp : ∀ s, buildPhaseEvent project (Event.print s) := fun s => Or.inl ⟨s, rfl⟩
  apply runStages_all _ _ _ t ht
  intro p hp' t ht
  simp only [List.mem_cons, List.mem_singleton, List.not_mem_nil, or_false] at hp'
  rcases hp' with rfl | rfl | rfl
  · simp only [deployStage]
    split
    · exact ht
    · split <;> exact ht
  · simp only [deployStage]
    have key := CheckRsyncAvailable_all _ (Or.inr (Or.inl rfl)) w ⟨dryRun, verbose⟩ _
      (printIf_all _ hp verbose ("Deploying project: " ++ projectName ++ " (path: " ++
          project.Path ++ ") to remote: " ++ remoteName ++ "\n") t ht)
    split <;> rename_i heq <;> rw [heq] at key <;> exact key
  · simp only [deployStage]
    have key := ExecuteCommands_all _ hp w ⟨dryRun, verbose⟩ project.BuildCommands project.Path
      (fun c hc name args hf => Or.inr (Or.inr ⟨c, hc, name, args, hf, rfl⟩)) _
      (printIf_all _ hp verbose "Executing build commands...\n" t ht)
    split <;> rename_i heq <;> rw [heq] at key <;> exact key

theorem validateRefs_lookup (c : Config) (name : String) (refs : List String)
    (h : c.validateRefs name refs = none) :
    ∀ r ∈ refs, ∃ remote, c.Remotes.lookup r = some remote := by
  induction refs with
  | nil => simp
  | cons r rest ih =>
    rw [Config.validateRefs] at h
    cases hl : c.Remotes.lookup r with
    | none => simp [hl] at h
    | some remote =>
      simp only [hl] at h
      intro x hx
      simp only [List.mem_cons] at hx
      rcases hx with rfl | hx
      · exact ⟨remote, hl⟩
      · exact ih h x hx

theorem validateProjects_lookup (w : World) (c : Config) (ps : List (String × Project))
    (t : Trace) (h : (c.validateProjects w ps t).2 = none) :
    ∀ p ∈ ps, ∀ r ∈ p.2.Remotes, ∃ remote, c.Remotes.lookup r = some remote := by
  induction ps generalizing t with
  | nil => simp
  | cons p rest ih =>
    obtain ⟨name, project⟩ := p
    rw [Config.validateProjects] at h
    cases hv : project.Validate w t with
    | mk t1 r =>
      cases r with
      | some e => simp [hv] at h
      | none =>
        simp only [hv] at h
        cases hr : c.validateRefs name project.Remotes with
        | some e => simp [hr] at h
        | none =>
          simp only [hr] at h
          intro q hq
          simp only [List.mem_cons] at hq
          rcases hq with rfl | hq
          · exact validateRefs_lookup c name project.Remotes hr
          · exact ih t1 h q hq

theorem Validate_lookup (w : World) (c : Config) (t : Trace)
    (h : (c.Validate w t).2 = none) (name : String) (project : Project)
    (hp : (name, project) ∈ c.Projects) (r : String) (hr : r ∈ project.Remotes) :
    ∃ remote, c.Remotes.lookup r = some remote := by
  unfold Config.Validate at h
  split at h
  · simp at h
  · cases hv : c.validateProjects w c.Projects t with
    | mk t1 res =>
      cases res with
      | some e => simp [hv] at h
      | none =>
        exact validateProjects_lookup w c c.Projects t (by simp [hv]) (name, project) hp r hr

theorem outputPathGuard_abs (cwd : Except String String) (project : Project)
    (outputPath : String) (h : outputPathGuard cwd project = .ok outputPath) :
    stringsContains project.OutputDir ".." = false ∧
    outputPath = Clean (Join [project.Path, project.OutputDir]) ∧
    ∃ projectAbsPath outputAbsPath, Abs cwd project.Path = .ok projectAbsPath ∧
      Abs cwd outputPath = .ok outputAbsPath ∧
      stringsHasPrefix outputAbsPath projectAbsPath = true := by
  unfold outputPathGuard at h
  cases hc : stringsContains project.OutputDir ".." with
  | true => simp [hc] at h
  | false =>
    simp only [hc, Bool.false_eq_true, if_false] at h
    cases h1 : Abs cwd project.Path with
    | error e => simp [h1] at h
    | ok pa =>
      simp only [h1] at h
      cases h2 : Abs cwd (Clean (Join [project.Path, project.OutputDir])) with
      | error e => simp [h2] at h
      | ok oa =>
        simp only [h2] at h
        cases h3 : stringsHasPrefix oa pa with
        | false => simp [h3] at h
        | true =>
          simp only [h3, Bool.not_true, Bool.false_eq_true, if_false, Except.ok.injEq] at h
          subst h
          exact ⟨rfl, rfl, pa, oa, rfl, h2, h3⟩

theorem pathElements_nil : pathElements [] = [[]] := rfl

theorem pathElements_cons (c : Char) (cs : List Char) :
    pathElements (c :: cs) =
      if c = Separator then [] :: pathElements cs
      else (pathElements cs).modifyHead (List.cons c) := by
  unfold pathElements List.splitOn
  rw [List.splitOnP_cons]
  simp

theorem pathElements_ne_nil (l : List Char) : pathElements l ≠ [] := by
  unfold pathElements List.splitOn
  exact List.splitOnP_ne_nil _ _

theorem pathElements_no_sep (l : List Char) : ∀ e ∈ pathElements l, Separator ∉ e := by
  induction l with
  | nil => simp [pathElements_nil]
  | cons c cs ih =>
    rw [pathElements_cons]
    split
    · intro e he
      simp only [List.mem_cons] at he
      rcases he with rfl | he
      · simp
      · exact ih e he
    · rename_i hc
      cases hp : pathElements cs with
      | nil => exact absurd hp (pathElements_ne_nil cs)
      | cons hd tl =>
        rw [hp] at ih
        intro e he
        simp only [List.modifyHead, List.mem_cons] at he
        rcases he with rfl | he
        · intro hmem
          simp only [List.mem_cons] at hmem
          rcases hmem with h | h
          · exact hc h.symm
          · exact ih hd (by simp) h
        · exact ih e (by simp [he])

theorem pathElements_append_sep (a b : List Char) :
    pathElements (a ++ Separator :: b) = pathElements a ++ pathElements b := by
  induction a with
  | nil => simp [pathElements_cons, pathElements_nil]
  | cons c cs ih =>
    rw [List.cons_append, pathElements_cons, pathElements_cons, ih]
    split
    · rfl
    · cases hp : pathElements cs with
      | nil => exact absurd hp (pathElements_ne_nil cs)
      | cons hd tl => simp [List.modifyHead]

theorem pathElements_sub (l : List Char) : ∀ e ∈ pathElements l, e <:+: l := by
  induction l with
  | nil => simp [pathElements_nil]
  | cons c cs ih =>
    rw [pathElements_cons]
    split
    · intro e he
      simp only [List.mem_cons] at he
      rcases he with rfl | he
      · exact List.nil_infix
      · exact (ih e he).trans (List.suffix_cons c cs).isInfix
    · cases hp : pathElements cs with
      | nil => exact absurd hp (pathElements_ne_nil cs)
      | cons hd tl =>
        rw [hp] at ih
        have hpre : hd <+: cs := by
          have := List.intercalate_splitOn cs Separator
          unfold pathElements at hp
          rw [hp] at this
          cases tl with
          | nil => simp [List.intercalate, List.flatten] at this; simp [this]
          | cons t2 tl2 =>
            simp [List.intercalate, List.flatten] at this
            exact ⟨_, this⟩
        intro e he
        simp only [List.modifyHead, List.mem_cons] at he
        rcases he with rfl | he
        · obtain ⟨t, ht⟩ := hpre
          exact ⟨[], t, by simp [← ht]⟩
        · exact (ih e (by simp [he])).trans (List.suffix_cons c cs).isInfix

theorem containsChars_of_sub (sub l : List Char) (h : sub <:+: l) :
    containsChars sub l = true := by
  obtain ⟨s, t, rfl⟩ := h
  induction s with
  | nil =>
    cases hst : sub ++ t with
    | nil =>
      simp only [List.nil_append, hst, containsChars]
      simp at hst
      simp [hst.1]
    | cons c cs =>
      simp only [List.nil_append, hst, containsChars, Bool.or_eq_true]
      left
      rw [← hst]
      simp
  | cons x s ih =>
    simp only [List.cons_append, containsChars, Bool.or_eq_true]
    right
    simpa using ih

theorem dotdot_not_mem_pathElements (s : String) (h : stringsContains s ".." = false) :
    ['.', '.'] ∉ pathElements s.data := by
  intro hmem
  have := containsChars_of_sub _ _ (pathElements_sub s.data _ hmem)
  unfold stringsContains at h
  have hd : "..".data = ['.', '.'] := rfl
  rw [hd, this] at h
  cases h

theorem cleanStep_name (r : Bool) (b : CleanBuf) (e : List Char) (h : isName e = true) :
    cleanStep r b e = { b with out := e :: b.out } := by
  simp only [isName, Bool.and_eq_true, decide_eq_true_eq] at h
  simp [cleanStep, h.1.1, h.1.2, h.2]

theorem cleanStep_not_name (r : Bool) (b : CleanBuf) (e : List Char) (h : isName e = false)
    (hdd : e ≠ ['.', '.']) : cleanStep r b e = b := by
  simp only [isName, Bool.and_eq_false_iff, decide_eq_false_iff_not, not_not] at h
  rcases h with (h | h) | h
  · simp [cleanStep, h]
  · simp [cleanStep, h]
  · exact absurd h hdd

theorem cleanLoop_append (r : Bool) (b : CleanBuf) (xs ys : List (List Char)) :
    cleanLoop r b (xs ++ ys) = cleanLoop r (cleanLoop r b xs) ys := by
  simp [cleanLoop, List.foldl_append]

theorem cleanLoop_cons (r : Bool) (b : CleanBuf) (x : List Char) (xs : List (List Char)) :
    cleanLoop r b (x :: xs) = cleanLoop r (cleanStep r b x) xs := rfl

theorem cleanLoop_nil (r : Bool) (b : CleanBuf) : cleanLoop r b [] = b := rfl

/-- Without a `..` element the loop only appends the names. -/
theorem cleanLoop_no_dotdot (r : Bool) (b : CleanBuf) (es : List (List Char))
    (h : ['.', '.'] ∉ es) :
    cleanLoop r b es = { out := (es.filter isName).reverse ++ b.out, dotdot := b.dotdot } := by
  induction es generalizing b with
  | nil => simp [cleanLoop_nil]
  | cons e es ih =>
    simp only [List.mem_cons, not_or] at h
    rw [cleanLoop_cons, ih _ h.2]
    cases hn : isName e with
    | true => simp [cleanStep_name r b e hn, List.filter, hn]
    | false => simp [cleanStep_not_name r b e hn (Ne.symm h.1), List.filter, hn]

theorem RootedInv_step (b : CleanBuf) (e : List Char) (hb : RootedInv b)
    (he : Separator ∉ e) : RootedInv (cleanStep true b e) := by
  by_cases hdd : e = ['.', '.']
  · subst hdd
    simp only [cleanStep]
    simp only [List.cons_ne_nil, if_false, List.cons.injEq, List.cons_ne_self, and_false,
      if_true]
    split
    · refine ⟨hb.1, ?_⟩
      intro x hx
      exact hb.2 x (List.mem_of_mem_tail hx)
    · simpa using hb
  · cases hn : isName e with
    | true =>
      rw [cleanStep_name true b e hn]
      refine ⟨hb.1, ?_⟩
      intro x hx
      simp only [List.mem_cons] at hx
      rcases hx with rfl | hx
      · exact ⟨hn, he⟩
      · exact hb.2 x hx
    | false =>
      rw [cleanStep_not_name true b e hn hdd]
      exact hb

theorem RootedInv_loop (b : CleanBuf) (es : List (List Char)) (hb : RootedInv b)
    (hes : ∀ e ∈ es, Separator ∉ e) : RootedInv (cleanLoop true b es) := by
  induction es generalizing b with
  | nil => exact hb
  | cons e es ih =>
    rw [cleanLoop_cons]
    exact ih _ (RootedInv_step b e hb (hes e (by simp))) (fun x hx => hes x (by simp [hx]))

theorem cleanLoop_names (r : Bool) (b : CleanBuf) (es : List (List Char))
    (h : ∀ e ∈ es, isName e = true) :
    cleanLoop r b es = { out := es.reverse ++ b.out, dotdot := b.dotdot } := by
  have hdd : ['.', '.'] ∉ es := by
    intro hm
    have := h _ hm
    simp [isName] at this
  rw [cleanLoop_no_dotdot r b es hdd]
  have : es.filter isName = es := List.filter_eq_self.2 h
  rw [this]

theorem cleanChars_rooted (x : List Char) (hx : x.head? = some Separator) :
    cleanChars x = cleanRender true (cleanLoop true ⟨[], 0⟩ (pathElements x)) := by
  unfold cleanChars
  have hne : x ≠ [] := by
    intro h
    simp [h] at hx
  simp [hne, hx]

theorem cleanChars_not_rooted (x : List Char) (hne : x ≠ [])
    (hx : x.head? ≠ some Separator) :
    cleanChars x = cleanRender false (cleanLoop false ⟨[], 0⟩ (pathElements x)) := by
  unfold cleanChars
  simp [hne, hx]

theorem pathElements_intercalate (ls : List (List Char))
    (h : ∀ e ∈ ls, Separator ∉ e) (hne : ls ≠ []) :
    pathElements (List.intercalate [Separator] ls) = ls :=
  List.splitOn_intercalate ls Separator h hne

theorem cleanLoop_render_rooted (n : CleanBuf) (hn : RootedInv n) :
    cleanLoop true ⟨[], 0⟩ (pathElements (cleanRender true n)) = n := by
  obtain ⟨out, dd⟩ := n
  obtain ⟨hd, hall⟩ := hn
  simp only at hd hall
  subst hd
  simp only [cleanRender, if_true]
  rw [pathElements_cons]
  simp only [if_true, cleanLoop_cons]
  have h0 : cleanStep true ⟨[], 0⟩ [] = ⟨[], 0⟩ := by simp [cleanStep]
  rw [h0]
  cases hout : out.reverse with
  | nil =>
    have : out = [] := by simpa using hout
    subst this
    simp [List.intercalate, pathElements_nil, cleanLoop_cons, cleanLoop_nil, h0]
  | cons l ls =>
    rw [pathElements_intercalate _ _ (by simp)]
    · rw [cleanLoop_names true _ _ (by
        intro e he
        rw [← hout] at he
        exact (hall e (by simpa using he)).1)]
      rw [← hout]
      simp
    · intro e he
      rw [← hout] at he
      exact (hall e (by simpa using he)).2

/-- The lemma `Clean (Clean x) = Clean x` for a rooted path. -/
theorem cleanChars_idem_rooted (x : List Char) (hx : x.head? = some Separator) :
    cleanChars (cleanChars x) = cleanChars x := by
  have hinv : RootedInv (cleanLoop true ⟨[], 0⟩ (pathElements x)) :=
    RootedInv_loop _ _ ⟨rfl, by simp⟩ (pathElements_no_sep x)
  have h1 := cleanChars_rooted x hx
  have hr : (cleanChars x).head? = some Separator := by
    rw [h1]
    simp [cleanRender]
  rw [cleanChars_rooted _ hr, h1, cleanLoop_render_rooted _ hinv]

theorem BufOk_step (r : Bool) (b : CleanBuf) (e : List Char) (hb : BufOk b) :
    BufOk (cleanStep r b e) := by
  unfold BufOk at *
  unfold cleanStep
  split
  · exact hb
  · split
    · exact hb
    · split
      · split
        · simp only [List.length_tail]
          omega
        · split
          · simp
          · exact hb
      · simp only [List.length_cons]
        omega

theorem BufOk_loop (r : Bool) (b : CleanBuf) (es : List (List Char)) (hb : BufOk b) :
    BufOk (cleanLoop r b es) := by
  induction es generalizing b with
  | nil => exact hb
  | cons e es ih => exact ih _ (BufOk_step r b e hb)

theorem RelInv_step (b : CleanBuf) (e : List Char) (hb : RelInv b)
    (he : Separator ∉ e) : RelInv (cleanStep false b e) := by
  obtain ⟨names, hout, hall⟩ := hb
  by_cases hdd : e = ['.', '.']
  · subst hdd
    simp only [cleanStep]
    simp only [List.cons_ne_nil, if_false, List.cons.injEq, List.cons_ne_self, and_false,
      if_true]
    split
    · rename_i hlt
      cases names with
      | nil =>
        rw [hout] at hlt
        simp at hlt
      | cons x ns =>
        refine ⟨ns, ?_, fun e he => hall e (by simp [he])⟩
        simp [hout]
    · rename_i hlt
      have hnil : names = [] := by
        rw [hout] at hlt
        simp only [List.length_append, List.length_replicate] at hlt
        apply List.eq_nil_of_length_eq_zero
        omega
      subst hnil
      refine ⟨[], ?_, by simp⟩
      simp only [Bool.not_false, if_true, List.nil_append]
      rw [hout]
      simp [List.replicate_succ]
  · cases hn : isName e with
    | true =>
      rw [cleanStep_name false b e hn]
      refine ⟨e :: names, by simp [hout], ?_⟩
      intro x hx
      simp only [List.mem_cons] at hx
      rcases hx with rfl | hx
      · exact ⟨hn, he⟩
      · exact hall x hx
    | false =>
      rw [cleanStep_not_name false b e hn hdd]
      exact ⟨names, hout, hall⟩

theorem RelInv_loop (b : CleanBuf) (es : List (List Char)) (hb : RelInv b)
    (hes : ∀ e ∈ es, Separator ∉ e) : RelInv (cleanLoop false b es) := by
  induction es generalizing b with
  | nil => exact hb
  | cons e es ih =>
    rw [cleanLoop_cons]
    exact ih _ (RelInv_step b e hb (hes e (by simp))) (fun x hx => hes x (by simp [hx]))

theorem RelInv_init : RelInv ⟨[], 0⟩ := ⟨[], by simp, by simp⟩

/-- Replaying the cleaned form of relative elements has the effect of the
elements themselves, on any buffer. -/
theorem cleanLoop_replay (es : List (List Char)) (hes : ∀ e ∈ es, Separator ∉ e)
    (r : Bool) (b : CleanBuf) (hb : BufOk b) :
    cleanLoop r b (cleanLoop false ⟨[], 0⟩ es).out.reverse = cleanLoop r b es := by
  induction es using List.reverseRecOn generalizing b with
  | nil => rfl
  | append_singleton xs e ih =>
    have hxs : ∀ e ∈ xs, Separator ∉ e := fun x hx => hes x (by simp [hx])
    have ih := ih hxs b hb
    have hinv := RelInv_loop ⟨[], 0⟩ xs RelInv_init hxs
    have hok := BufOk_loop r b (cleanLoop false ⟨[], 0⟩ xs).out.reverse hb
    rw [cleanLoop_append, cleanLoop_append, cleanLoop_cons, cleanLoop_nil, cleanLoop_cons,
      cleanLoop_nil, ← ih]
    generalize cleanLoop false ⟨[], 0⟩ xs = n at hinv hok ⊢
    obtain ⟨names, hout, hall⟩ := hinv
    by_cases hdd : e = ['.', '.']
    · subst hdd
      by_cases hlt : n.out.length > n.dotdot
      · cases names with
        | nil =>
          rw [hout] at hlt
          simp at hlt
        | cons x ns =>
          have h1 : cleanStep false n ['.', '.'] = { n with out := n.out.tail } := by
            simp [cleanStep, hlt]
          rw [h1]
          simp only [hout, List.cons_append, List.tail_cons, List.reverse_cons,
            cleanLoop_append, cleanLoop_cons, cleanLoop_nil] at hok ⊢
          have hS : BufOk (cleanLoop r b (ns ++ List.replicate n.dotdot ['.', '.']).reverse) :=
            BufOk_loop r b (ns ++ List.replicate n.dotdot ['.', '.']).reverse hb
          generalize cleanLoop r b (ns ++ List.replicate n.dotdot ['.', '.']).reverse = S
            at hS ⊢
          rw [cleanStep_name r S x (hall x (by simp)).1]
          unfold BufOk at hS
          have hgt : S.dotdot < S.out.length + 1 := by omega
          simp [cleanStep, hgt]
      · have h1 : cleanStep false n ['.', '.'] =
            { out := ['.', '.'] :: n.out, dotdot := n.out.length + 1 } := by
          simp [cleanStep, hlt]
        rw [h1]
        simp only [List.reverse_cons, cleanLoop_append, cleanLoop_cons, cleanLoop_nil]
    · cases hn : isName e with
      | true =>
        rw [cleanStep_name false n e hn]
        simp only [List.reverse_cons, cleanLoop_append, cleanLoop_cons, cleanLoop_nil]
      | false =>
        rw [cleanStep_not_name false n e hn hdd, cleanStep_not_name r _ e hn hdd]

theorem RelInv_no_sep (n : CleanBuf) (hn : RelInv n) :
    ∀ e ∈ n.out, e ≠ [] ∧ Separator ∉ e := by
  obtain ⟨names, hout, hall⟩ := hn
  intro e he
  rw [hout] at he
  simp only [List.mem_append, List.mem_replicate] at he
  rcases he with he | ⟨_, rfl⟩
  · have := hall e he
    refine ⟨?_, this.2⟩
    intro h
    rw [h] at this
    simp [isName] at this
  · simp [Separator]

/-- The elements of a cleaned relative path act on a buffer like the
elements of the path. -/
theorem cleanLoop_cleanChars (x : List Char) (hx : x.head? ≠ some Separator)
    (r : Bool) (b : CleanBuf) (hb : BufOk b) :
    cleanLoop r b (pathElements (cleanChars x)) = cleanLoop r b (pathElements x) := by
  by_cases hne : x = []
  · subst hne
    have : cleanChars [] = ['.'] := rfl
    rw [this]
    have h2 : pathElements ['.'] = [['.']] := by decide
    rw [h2, pathElements_nil]
    simp [cleanLoop_cons, cleanLoop_nil, cleanStep]
  · rw [cleanChars_not_rooted x hne hx]
    have hinv := RelInv_loop ⟨[], 0⟩ (pathElements x) RelInv_init (pathElements_no_sep x)
    have hrep := cleanLoop_replay (pathElements x) (pathElements_no_sep x) r b hb
    generalize cleanLoop false ⟨[], 0⟩ (pathElements x) = n at hinv hrep ⊢
    rw [← hrep]
    unfold cleanRender
    simp only [Bool.false_eq_true, if_false]
    split
    · rename_i hnil
      have h2 : pathElements ['.'] = [['.']] := by decide
      rw [h2, hnil]
      simp [cleanLoop_cons, cleanLoop_nil, cleanStep]
    · rename_i hnil
      rw [pathElements_intercalate]
      · intro e he
        exact (RelInv_no_sep n hinv e (by simpa using he)).2
      · simpa using hnil

theorem cleanChars_head_not_rooted (x : List Char) (hx : x.head? ≠ some Separator) :
    cleanChars x ≠ [] ∧ (cleanChars x).head? ≠ some Separator := by
  by_cases hne : x = []
  · subst hne
    have : cleanChars [] = ['.'] := rfl
    rw [this]
    simp [Separator]
  · rw [cleanChars_not_rooted x hne hx]
    have hinv := RelInv_loop ⟨[], 0⟩ (pathElements x) RelInv_init (pathElements_no_sep x)
    generalize cleanLoop false ⟨[], 0⟩ (pathElements x) = n at hinv ⊢
    unfold cleanRender
    simp only [Bool.false_eq_true, if_false]
    split
    · simp [Separator]
    · rename_i hnil
      have hall := RelInv_no_sep n hinv
      cases hrev : n.out.reverse with
      | nil => simp at hrev; exact absurd hrev hnil
      | cons l ls =>
        have hl := hall l (by
          have : l ∈ n.out.reverse := by rw [hrev]; simp
          simpa using this)
        cases l with
        | nil => exact absurd rfl hl.1
        | cons c cs =>
          have hc : c ≠ Separator := by
            intro h
            apply hl.2
            simp [h]
          cases ls with
          | nil => simp [List.intercalate, hc]
          | cons l2 ls2 => simp [List.intercalate, hc]

/-- The lemma `Clean (Clean x) = Clean x` for a path that is not rooted. -/
theorem cleanChars_idem_not_rooted (x : List Char) (hx : x.head? ≠ some Separator) :
    cleanChars (cleanChars x) = cleanChars x := by
  obtain ⟨h1, h2⟩ := cleanChars_head_not_rooted x hx
  rw [cleanChars_not_rooted _ h1 h2]
  rw [cleanLoop_cleanChars x hx false ⟨[], 0⟩ (by simp [BufOk])]
  by_cases hne : x = []
  · subst hne
    decide
  · rw [cleanChars_not_rooted x hne hx]

theorem intercalate_append_ne (sep : List Char) (xs ys : List (List Char))
    (hx : xs ≠ []) (hy : ys ≠ []) :
    List.intercalate sep (xs ++ ys) =
      List.intercalate sep xs ++ sep ++ List.intercalate sep ys := by
  induction xs with
  | nil => exact absurd rfl hx
  | cons x xs ih =>
    cases xs with
    | nil =>
      cases ys with
      | nil => exact absurd rfl hy
      | cons y ys => simp [List.intercalate, List.intersperse]
    | cons x2 xs =>
      have := ih (by simp)
      simp only [List.intercalate] at this ⊢
      simp only [List.cons_append, List.intersperse_cons_cons, List.flatten_cons,
        List.append_assoc] at this ⊢
      rw [this]

theorem cleanRender_rooted_append (F out : List (List Char)) :
    cleanRender true ⟨F.reverse ++ out, 0⟩ =
      Separator :: List.intercalate [Separator] (out.reverse ++ F) := by
  simp [cleanRender]

theorem render_within (n : CleanBuf) (hn : RootedInv n) (O : List Char)
    (hO : ['.', '.'] ∉ pathElements O) :
    ∃ rootElems extra : List (List Char),
      (∀ e ∈ rootElems ++ extra, isName e = true ∧ Separator ∉ e) ∧
      cleanRender true n = Separator :: List.intercalate [Separator] rootElems ∧
      cleanRender true (cleanLoop true n (pathElements O)) =
        Separator :: List.intercalate [Separator] (rootElems ++ extra) := by
  refine ⟨n.out.reverse, (pathElements O).filter isName, ?_, ?_, ?_⟩
  · intro e he
    simp only [List.mem_append, List.mem_reverse, List.mem_filter] at he
    rcases he with he | ⟨he, hname⟩
    · exact hn.2 e he
    · exact ⟨hname, pathElements_no_sep O e he⟩
  · simp [cleanRender]
  · rw [cleanLoop_no_dotdot true n _ hO, hn.1]
    exact cleanRender_rooted_append _ _

theorem pathWithin_of_elems (pa oa : String) (R E : List (List Char))
    (hall : ∀ e ∈ R ++ E, isName e = true ∧ Separator ∉ e)
    (hpa : pa.data = Separator :: List.intercalate [Separator] R)
    (hoa : oa.data = Separator :: List.intercalate [Separator] (R ++ E)) :
    pathWithin pa oa = true := by
  unfold pathWithin
  cases E with
  | nil =>
    have : oa = pa := by
      apply String.ext
      rw [hpa, hoa]
      simp
    simp [this]
  | cons e es =>
    simp only [Bool.or_eq_true, decide_eq_true_eq]
    right
    cases R with
    | nil =>
      have : pa = "/" := by
        apply String.ext
        rw [hpa]
        rfl
      subst this
      simp only [if_true, stringsHasPrefix, hoa]
      simp [Separator]
    | cons r rs =>
      have hr : r ≠ [] := by
        have := (hall r (by simp)).1
        intro h
        rw [h] at this
        simp [isName] at this
      have hne : pa ≠ "/" := by
        intro h
        rw [h] at hpa
        have h1 : "/".data = [Separator] := rfl
        rw [h1] at hpa
        simp only [List.cons.injEq, true_and] at hpa
        cases r with
        | nil => exact hr rfl
        | cons c cs =>
          cases rs <;> simp [List.intercalate] at hpa
      simp only [hne, if_false, stringsHasPrefix, String.data_append, hoa, hpa]
      rw [intercalate_append_ne _ _ _ (by simp) (by simp)]
      simp [Separator]

theorem Join_pair (a b : String) (ha : a ≠ "") :
    Join [a, b] = Clean ⟨a.data ++ Separator :: b.data⟩ := by
  unfold Join
  simp only [List.dropWhile, ha, decide_False]
  congr 1
  unfold stringsJoin
  apply String.ext
  have h1 : "/".data = [Separator] := rfl
  simp [List.intercalate, h1]
  rfl

theorem IsAbs_iff (s : String) : IsAbs s = true ↔ s.data.head? = some Separator := by
  unfold IsAbs stringsHasPrefix
  have h1 : "/".data = [Separator] := rfl
  rw [h1]
  cases s.data with
  | nil => simp [List.isPrefixOf]
  | cons c cs =>
    simp only [List.isPrefixOf, List.head?_cons, Option.some.injEq, Bool.and_true,
      beq_iff_eq]
    exact eq_comm

theorem data_ne_nil (s : String) (h : s ≠ "") : s.data ≠ [] := by
  intro hd
  apply h
  apply String.ext
  rw [hd]

theorem cleanRender_rooted_head (n : CleanBuf) :
    (cleanRender true n).head? = some Separator := by
  simp [cleanRender]

/-- The two absolute paths the guard compares, as buffers of `Clean`: the
project root is the rendering of a rooted buffer and the output path that of
the same buffer after the elements of `OutputDir`. -/
theorem outputPathGuard_buffers (cwd : Except String String) (project : Project)
    (outputPath projectAbsPath outputAbsPath : String)
    (hpath : project.Path ≠ "")
    (hcwd : ∀ wd, cwd = .ok wd → IsAbs wd = true)
    (hop : outputPath = Clean (Join [project.Path, project.OutputDir]))
    (hpa : Abs cwd project.Path = .ok projectAbsPath)
    (hoa : Abs cwd outputPath = .ok outputAbsPath) :
    ∃ n, RootedInv n ∧ projectAbsPath.data = cleanRender true n ∧
      outputAbsPath.data =
        cleanRender true (cleanLoop true n (pathElements project.OutputDir.data)) := by
  have hP := data_ne_nil _ hpath
  have hinit : RootedInv ⟨[], 0⟩ := ⟨rfl, by simp⟩
  rw [Join_pair _ _ hpath] at hop
  have hopd : outputPath.data =
      cleanChars (cleanChars (project.Path.data ++ Separator :: project.OutputDir.data)) := by
    rw [hop]; rfl
  cases habs : IsAbs project.Path with
  | true =>
    have hroot := (IsAbs_iff _).1 habs
    have hy : (project.Path.data ++ Separator :: project.OutputDir.data).head? =
        some Separator := by
      cases hd : project.Path.data with
      | nil => exact absurd hd hP
      | cons c cs => rw [hd] at hroot; simpa using hroot
    rw [cleanChars_idem_rooted _ hy] at hopd
    have hy2 := cleanChars_rooted _ hy
    have hoabs : IsAbs outputPath = true := by
      rw [IsAbs_iff, hopd, hy2]
      exact cleanRender_rooted_head _
    simp only [Abs, habs, if_true, Except.ok.injEq] at hpa
    simp only [Abs, hoabs, if_true, Except.ok.injEq] at hoa
    refine ⟨cleanLoop true ⟨[], 0⟩ (pathElements project.Path.data),
      RootedInv_loop _ _ hinit (pathElements_no_sep _), ?_, ?_⟩
    · rw [← hpa]
      exact cleanChars_rooted _ hroot
    · rw [← hoa]
      show cleanChars outputPath.data = _
      rw [hopd, cleanChars_idem_rooted _ hy, hy2, pathElements_append_sep, cleanLoop_append]
  | false =>
    have hrel : project.Path.data.head? ≠ some Separator := by
      intro h
      rw [(IsAbs_iff _).2 h] at habs
      cases habs
    have hy : (project.Path.data ++ Separator :: project.OutputDir.data).head? ≠
        some Separator := by
      cases hd : project.Path.data with
      | nil => exact absurd hd hP
      | cons c cs => rw [hd] at hrel; simpa using hrel
    rw [cleanChars_idem_not_rooted _ hy] at hopd
    obtain ⟨hne, hhead⟩ := cleanChars_head_not_rooted _ hy
    have hoabs : IsAbs outputPath = false := by
      cases h : IsAbs outputPath with
      | false => rfl
      | true =>
        rw [IsAbs_iff, hopd] at h
        exact absurd h hhead
    cases hc : cwd with
    | error e => simp [Abs, habs, hc] at hpa
    | ok wd =>
      have hwabs := hcwd wd hc
      have hwroot := (IsAbs_iff _).1 hwabs
      have hwne : wd ≠ "" := by
        intro h
        rw [h] at hwroot
        simp at hwroot
      simp only [Abs, habs, hc, Bool.false_eq_true, if_false, Except.ok.injEq] at hpa
      simp only [Abs, hoabs, hc, Bool.false_eq_true, if_false, Except.ok.injEq] at hoa
      rw [Join_pair _ _ hwne] at hpa hoa
      have hw1 : ∀ rest : List Char, (wd.data ++ Separator :: rest).head? = some Separator := by
        intro rest
        cases hd : wd.data with
        | nil => rw [hd] at hwroot; simp at hwroot
        | cons c cs => rw [hd] at hwroot; simpa using hwroot
      refine ⟨cleanLoop true ⟨[], 0⟩ (pathElements wd.data ++ pathElements project.Path.data),
        RootedInv_loop _ _ hinit ?_, ?_, ?_⟩
      · intro e he
        simp only [List.mem_append] at he
        rcases he with he | he
        · exact pathElements_no_sep _ e he
        · exact pathElements_no_sep _ e he
      · rw [← hpa]
        show cleanChars (wd.data ++ Separator :: project.Path.data) = _
        rw [cleanChars_rooted _ (hw1 _), pathElements_append_sep]
      · rw [← hoa]
        show cleanChars (wd.data ++ Separator :: outputPath.data) = _
        rw [cleanChars_rooted _ (hw1 _), pathElements_append_sep, cleanLoop_append, hopd,
          cleanLoop_cleanChars _ hy true _
            (BufOk_loop true _ _ (by simp [BufOk])),
          pathElements_append_sep, cleanLoop_append, cleanLoop_append]

theorem getHostKeyCallback_installed (w : World) (c : SshClient) (t : Trace) :
    (match (c.getHostKeyCallback w t).2 with
      | .ok hostKeyCallback => hostKeyCallback
      | .error _ => HostKeyCallback.insecureIgnoreHostKey) = installedHostKeyPolicy w t := by
  unfold SshClient.getHostKeyCallback installedHostKeyPolicy
  cases w.homeDir with
  | error e => rfl
  | ok home =>
    simp only
    by_cases hs : w.stat t (Join [home, ".ssh", "known_hosts"]) = StatResult.notExist
    · simp only [hs, if_true]
    · simp only [hs, if_false]
      cases w.knownHostsNew (t ++ [Event.stat (Join [home, ".ssh", "known_hosts"])])
        (Join [home, ".ssh", "known_hosts"]) <;> rfl

/-- A project that passes `Project.Validate` has a non-empty path: the
precondition under which the path guard is sound holds for every project of
a loaded configuration. -/
theorem Project_Validate_path_ne (w : World) (p : Project) (t : Trace)
    (h : (p.Validate w t).2 = none) : p.Path ≠ "" := by
  intro he
  simp [Project.Validate, he] at h

/-! ## The claims -/

/-- Claim C3. When `remoteName` is not among `project.Remotes`, `deployProject`
returns the "not allowed" error and the history at its return is the history
at its call: no build command, no rsync lookup, no filesystem probe, no sync
and no remote connection happened. -/
theorem deployProject_remote_not_allowed (w : World) (dryRun verbose : Bool) (cfg : Config)
    (projectName : String) (project : Project) (remoteName : String) (t : Trace)
    (h : remoteName ∉ project.Remotes) :
    deployProject w dryRun verbose cfg projectName project remoteName t =
      (t, some ("remote '" ++ remoteName ++ "' is not allowed for project '" ++ projectName ++
        "'. Available remotes: " ++ stringsJoin project.Remotes ", ")) := by
  unfold deployProject
  simp [h]

/-- Witness of claim C3: project `site` has `remotes: [prod]`; deploying it to
`staging` fails with the "not allowed" error and an empty history. -/
theorem deployProject_remote_not_allowed_witness :
    "staging" ∉ siteProject.Remotes ∧
    deployProject happyWorld false true siteConfig "site" siteProject "staging" [] =
      ([], some ("remote '" ++ "staging" ++ "' is not allowed for project '" ++ "site" ++
        "'. Available remotes: " ++ stringsJoin siteProject.Remotes ", ")) :=
  ⟨by decide,
   deployProject_remote_not_allowed happyWorld false true siteConfig "site" siteProject
     "staging" [] (by decide)⟩

/-- Claim C4, evaluated on the code: the scenario configuration passes
`Config.Validate`, its remote `prod` has no rsync options, `Remote.Validate`
sets the preset `-avz` on the receiver it is given, and yet `deployProject`
starts rsync without `-avz`: the receiver was a copy of the map value. -/
theorem deployProject_rsync_options_bug :
    (Config.Validate happyWorld siteConfig []).2 = none ∧
    siteConfig.Remotes.lookup "prod" = some prodRemote ∧
    prodRemote.RsyncOptions = [] ∧
    (prodRemote.Validate).1.RsyncOptions = ["-avz"] ∧
    Event.spawn "rsync" ["/app/dist/", "user@example.com:/remote/path"] "" ∈
      (deployProject happyWorld false false siteConfig "site" siteProject "prod" []).1 ∧
    Event.spawn "rsync" ["-avz", "/app/dist/", "user@example.com:/remote/path"] "" ∉
      (deployProject happyWorld false false siteConfig "site" siteProject "prod" []).1 := by
  decide

/-- Claim C7. Outside dry-run, `Executor.ExecuteCommands` attempts the commands in the
configured order and stops at the first failure: either every command
succeeds, the history grows by the events of all commands and the call
succeeds; or the list splits into the commands that ran successfully, the
first failing command and the rest, the history grows by the events of the
commands up to and including the failing one (nothing of the rest), and the
error carries the literal text of the failing command. The call succeeds
exactly when no command fails, and an empty list succeeds and runs nothing. -/
theorem Executor_ExecuteCommands_fail_fast (w : World) (e : Executor)
    (commands : List String) (workDir : String) (t : Trace) (hdry : e.DryRun = false) :
    ((e.allSucceed w workDir t commands ∧
        e.ExecuteCommands w commands workDir t =
          (t ++ e.commandsEvents workDir commands, none)) ∨
      (∃ ran failing rest err, commands = ran ++ failing :: rest ∧
        e.allSucceed w workDir t ran ∧
        (e.executeCommand w failing workDir (t ++ e.commandsEvents workDir ran)).2 = some err ∧
        e.ExecuteCommands w commands workDir t =
          (t ++ e.commandsEvents workDir (ran ++ [failing]),
            some ("command failed: " ++ failing ++ ": " ++ err)))) ∧
    ((e.ExecuteCommands w commands workDir t).2 = none ↔ e.allSucceed w workDir t commands) ∧
    e.ExecuteCommands w [] workDir t = (t, none) := by
  have h := ExecuteCommands_cases w e commands workDir t hdry
  refine ⟨h, ?_, rfl⟩
  rcases h with ⟨hall, heq⟩ | ⟨ran, failing, rest, err, hsplit, hall, hfail, heq⟩
  · simp [heq, hall]
  · rw [heq]
    simp only [reduceCtorEq, false_iff]
    intro hall2
    have := hall2 ran failing rest hsplit
    rw [hfail] at this
    cases this

/-- Witness of claim C7: the commands `[make a, false, make c]`, where `false`
fails: `make a` and `false` run, `make c` does not. -/
theorem Executor_ExecuteCommands_fail_fast_witness :
    Executor.ExecuteCommands failingWorld ⟨false, false⟩ ["make a", "false", "make c"] "/app" [] =
      ([Event.spawn "make" ["a"] "/app", Event.spawn "false" [] "/app"],
        some "command failed: false: exit status 1") ∧
    ((Executor.ExecuteCommands failingWorld ⟨false, false⟩ ["make a", "false", "make c"]
        "/app" []).2 = none ↔
      Executor.allSucceed failingWorld ⟨false, false⟩ "/app" [] ["make a", "false", "make c"]) :=
  ⟨by decide,
   (Executor_ExecuteCommands_fail_fast failingWorld ⟨false, false⟩
      ["make a", "false", "make c"] "/app" [] rfl).2.1⟩

/-- Claim C9. `buildRsyncArgs` returns the options in their order, then
`--dry-run` iff dry-run is active, then `--verbose` iff verbose is active,
then the local path with the separator `/` appended only when it does not
already end with one, then `user@host:path` as the last element; the local
path `/app/dist` yields `/app/dist/` and the destination
`user@host:/remote/path`. -/
theorem buildRsyncArgs_exact (c : RsyncClient)
    (localPath remoteUser remoteHost remotePath : String) (options : List String) :
    c.buildRsyncArgs localPath remoteUser remoteHost remotePath options =
      options ++ (if c.DryRun then ["--dry-run"] else []) ++
        (if c.Verbose then ["--verbose"] else []) ++
        [c.ensureTrailingSlash localPath,
         remoteUser ++ "@" ++ remoteHost ++ ":" ++ remotePath] ∧
    stringsHasSuffix (c.ensureTrailingSlash localPath) "/" = true ∧
    (stringsHasSuffix localPath "/" = true → c.ensureTrailingSlash localPath = localPath) ∧
    (stringsHasSuffix localPath "/" = false →
      c.ensureTrailingSlash localPath = localPath ++ "/") ∧
    (c.buildRsyncArgs localPath remoteUser remoteHost remotePath options).getLast? =
      some (remoteUser ++ "@" ++ remoteHost ++ ":" ++ remotePath) ∧
    c.buildRsyncArgs "/app/dist" "user" "host" "/remote/path" [] =
      (if c.DryRun then ["--dry-run"] else []) ++ (if c.Verbose then ["--verbose"] else []) ++
        ["/app/dist/", "user@host:/remote/path"] := by
  refine ⟨?_, ?_, ?_, ?_, ?_, ?_⟩
  · unfold RsyncClient.buildRsyncArgs
    cases c.DryRun <;> cases c.Verbose <;> simp
  · unfold RsyncClient.ensureTrailingSlash
    cases h : stringsHasSuffix localPath "/"
    · simp [stringsHasSuffix, String.data_append]
    · simp [h]
  · intro h; simp [RsyncClient.ensureTrailingSlash, h]
  · intro h; simp [RsyncClient.ensureTrailingSlash, h]
  · unfold RsyncClient.buildRsyncArgs
    simp
  · obtain ⟨d, v⟩ := c
    cases d <;> cases v <;> decide

/-- Claim C5. In dry-run mode a run of `deployProject` spawns no external
process, makes no search of the executable path and opens no connection
(agent socket, remote host, session), whatever its outcome: every event of
the run is a printed line or a filesystem probe. -/
theorem deployProject_dry_run_quiet (w : World) (verbose : Bool) (cfg : Config)
    (projectName : String) (project : Project) (remoteName : String) :
    ∀ ev ∈ (deployProject w true verbose cfg projectName project remoteName []).1,
      ev.isProcess = false ∧ ev.isNetwork = false ∧
        ((∃ s, ev = Event.print s) ∨ (∃ p, ev = Event.stat p)) := by
  rw [deployProject_eq_pipeline]
  have h := runStages_all
    (fun ev => ev.isProcess = false ∧ ev.isNetwork = false ∧
        ((∃ s, ev = Event.print s) ∨ (∃ p, ev = Event.stat p)))
    (deployStages w true verbose cfg projectName project remoteName)
    (by
      intro p hp t ht
      simp only [deployStages, List.mem_map] at hp
      obtain ⟨s, _, rfl⟩ := hp
      exact deployStage_dry_all _ (by simp [Event.isProcess, Event.isNetwork])
        (by simp [Event.isProcess, Event.isNetwork]) w verbose cfg projectName project
        remoteName s t ht)
    [] (by simp)
  unfold deployFinish
  split
  · exact h
  · intro ev hev
    simp only [List.mem_append, List.mem_singleton] at hev
    rcases hev with h1 | rfl
    · exact h ev h1
    · simp [Event.isProcess, Event.isNetwork]

/-- Witness of claim C5: in the dry run of the scenario the probe of
`/app/dist` is an event of the run, and it is neither a process nor a
connection. -/
theorem deployProject_dry_run_quiet_witness :
    Event.stat "/app/dist" ∈
      (deployProject happyWorld true false siteConfig "site" siteProject "prod" []).1 ∧
    ((Event.stat "/app/dist").isProcess = false ∧ (Event.stat "/app/dist").isNetwork = false ∧
      ((∃ s, Event.stat "/app/dist" = Event.print s) ∨
        (∃ p, Event.stat "/app/dist" = Event.stat p))) :=
  ⟨by decide,
   deployProject_dry_run_quiet happyWorld false siteConfig "site" siteProject "prod"
     (Event.stat "/app/dist") (by decide)⟩

/-- Claim C1. When `project.OutputDir` contains `..`, `deployProject` returns
an error whatever the mode; the stages performed stop at the output guard at
the latest (sync and the remote commands are not reached), and every event of
the run is a printed line, the search for `rsync` or the process of a build
command: no filesystem probe, no rsync transfer and no connection happens. -/
theorem deployProject_traversal_rejected (w : World) (dryRun verbose : Bool) (cfg : Config)
    (projectName : String) (project : Project) (remoteName : String)
    (h : stringsContains project.OutputDir ".." = true) :
    (deployProject w dryRun verbose cfg projectName project remoteName []).2 ≠ none ∧
    deployProject w dryRun verbose cfg projectName project remoteName [] =
      ((runStages (deployStages w dryRun verbose cfg projectName project remoteName) []).trace,
       (runStages (deployStages w dryRun verbose cfg projectName project remoteName) []).err) ∧
    (runStages (deployStages w dryRun verbose cfg projectName project remoteName) []).performed
      <+: [Stage.eligibility, Stage.rsyncCheck, Stage.build, Stage.outputGuard] ∧
    ∀ ev ∈ (deployProject w dryRun verbose cfg projectName project remoteName []).1,
      buildPhaseEvent project ev ∧ ev.isFilesystem = false ∧ ev.isNetwork = false := by
  have hg : ∀ t, deployStage w dryRun verbose cfg projectName project remoteName
      Stage.outputGuard t =
        (t, some ("output directory contains directory traversal: " ++ project.OutputDir)) := by
    intro t
    simp [deployStage, outputPathGuard, h]
  have hall := buildPhase_all w dryRun verbose cfg projectName project remoteName [] (by simp)
  have hperf := (runStages_performed
      [(Stage.eligibility,
          deployStage w dryRun verbose cfg projectName project remoteName Stage.eligibility),
       (Stage.rsyncCheck,
          deployStage w dryRun verbose cfg projectName project remoteName Stage.rsyncCheck),
       (Stage.build,
          deployStage w dryRun verbose cfg projectName project remoteName Stage.build)] [])
  have hev : ∀ ev, buildPhaseEvent project ev →
      buildPhaseEvent project ev ∧ ev.isFilesystem = false ∧ ev.isNetwork = false := by
    intro ev hb
    refine ⟨hb, ?_⟩
    rcases hb with ⟨s, rfl⟩ | rfl | ⟨c, _, name, args, _, rfl⟩ <;>
      simp [Event.isFilesystem, Event.isNetwork]
  rw [deployProject_eq_pipeline, deployStages_split, runStages_append]
  generalize runStages
      [(Stage.eligibility,
          deployStage w dryRun verbose cfg projectName project remoteName Stage.eligibility),
       (Stage.rsyncCheck,
          deployStage w dryRun verbose cfg projectName project remoteName Stage.rsyncCheck),
       (Stage.build,
          deployStage w dryRun verbose cfg projectName project remoteName Stage.build)] [] = r
    at hall hperf ⊢
  obtain ⟨perf, tr, err⟩ := r
  obtain ⟨hpre, hfull, -, -⟩ := hperf
  simp only [List.map] at hpre hfull
  cases err with
  | some e =>
    simp only [deployFinish]
    refine ⟨by simp, trivial, ?_, fun ev hev' => hev ev (hall ev hev')⟩
    exact hpre.trans (by decide)
  | none =>
    simp only [runStages, hg, deployFinish]
    refine ⟨by simp, trivial, ?_, fun ev hev' => hev ev (hall ev hev')⟩
    rw [hfull rfl]
    decide

/-- Witness of claim C1: the project `site` with `outputDir=../secret` is
rejected, in a world where everything else succeeds. -/
theorem deployProject_traversal_rejected_witness :
    stringsContains escapingProject.OutputDir ".." = true ∧
    (deployProject happyWorld false false siteConfig "site" escapingProject "prod" []).2 ≠
      none :=
  ⟨by decide,
   (deployProject_traversal_rejected happyWorld false false siteConfig "site" escapingProject
      "prod" (by decide)).1⟩

theorem prefix_all_cases (l : List Stage) (h : l <+: Stage.all) :
    l = [] ∨ l = [Stage.eligibility] ∨ l = [Stage.eligibility, Stage.rsyncCheck] ∨
    l = [Stage.eligibility, Stage.rsyncCheck, Stage.build] ∨
    l = [Stage.eligibility, Stage.rsyncCheck, Stage.build, Stage.outputGuard] ∨
    l = [Stage.eligibility, Stage.rsyncCheck, Stage.build, Stage.outputGuard, Stage.sync] ∨
    l = [Stage.eligibility, Stage.rsyncCheck, Stage.build, Stage.outputGuard, Stage.sync,
      Stage.postRemote] ∨
    l = Stage.all := by
  have h1 := List.prefix_iff_eq_take.1 h
  have h2 : l.length ≤ 7 := by simpa [Stage.all] using h.length_le
  generalize l.length = k at h1 h2
  subst h1
  interval_cases k <;> simp [Stage.all]

/-- Claim C8. A run of `deployProject` is a run of the staged pipeline: the
stages performed form a prefix of the fixed sequence, none twice, a stage is
performed only when the stages before it succeeded, and all are performed when
none fails. When the build stage fails, sync and the remote commands are not
performed and the run has no connection event; when the remote commands fail,
the local post-commands are not performed. -/
theorem deployProject_stages_in_order (w : World) (dryRun verbose : Bool) (cfg : Config)
    (projectName : String) (project : Project) (remoteName : String) :
    deployProject w dryRun verbose cfg projectName project remoteName [] =
      deployFinish projectName remoteName
        (deployRun w dryRun verbose cfg projectName project remoteName []) ∧
    (deployRun w dryRun verbose cfg projectName project remoteName []).performed
      <+: Stage.all ∧
    (deployRun w dryRun verbose cfg projectName project remoteName []).performed.Nodup ∧
    (∀ i, i < (deployRun w dryRun verbose cfg projectName project remoteName []).performed.length →
      (runStages ((deployStages w dryRun verbose cfg projectName project remoteName).take i)
        []).err = none) ∧
    ((deployRun w dryRun verbose cfg projectName project remoteName []).err = none →
      (deployRun w dryRun verbose cfg projectName project remoteName []).performed = Stage.all) ∧
    ((deployRun w dryRun verbose cfg projectName project remoteName []).failed = some Stage.build →
      Stage.sync ∉ (deployRun w dryRun verbose cfg projectName project remoteName []).performed ∧
      Stage.postRemote ∉
        (deployRun w dryRun verbose cfg projectName project remoteName []).performed ∧
      ∀ ev ∈ (deployProject w dryRun verbose cfg projectName project remoteName []).1,
        buildPhaseEvent project ev ∧ ev.isNetwork = false) ∧
    ((deployRun w dryRun verbose cfg projectName project remoteName []).failed =
        some Stage.postRemote →
      Stage.postLocal ∉
        (deployRun w dryRun verbose cfg projectName project remoteName []).performed) := by
  have hmap : (deployStages w dryRun verbose cfg projectName project remoteName).map Prod.fst =
      Stage.all := by
    simp [deployStages, Stage.all]
  obtain ⟨hpre, hfull, htake, hearlier⟩ :=
    runStages_performed (deployStages w dryRun verbose cfg projectName project remoteName) []
  rw [hmap] at hpre hfull
  have hcases := prefix_all_cases _ hpre
  have heq := deployProject_eq_pipeline w dryRun verbose cfg projectName project remoteName []
  refine ⟨heq, hpre, ?_, hearlier, hfull, ?_, ?_⟩
  · exact List.Sublist.nodup hpre.sublist (by decide)
  · intro hf
    unfold PipelineResult.failed at hf
    unfold deployRun at hf ⊢
    cases herr : (runStages (deployStages w dryRun verbose cfg projectName project remoteName)
        []).err with
    | none => simp [herr] at hf
    | some e =>
      simp only [herr] at hf
      have hp3 : (runStages (deployStages w dryRun verbose cfg projectName project remoteName)
          []).performed = [Stage.eligibility, Stage.rsyncCheck, Stage.build] := by
        rcases hcases with h | h | h | h | h | h | h | h <;> rw [h] at hf <;>
          first
          | exact h
          | (simp [Stage.all] at hf)
      refine ⟨by simp [hp3], by simp [hp3], ?_⟩
      rw [heq, deployFinish, herr]
      simp only
      rw [hp3] at htake
      rw [← htake]
      intro ev hev
      have hb := buildPhase_all w dryRun verbose cfg projectName project remoteName [] (by simp)
        ev hev
      refine ⟨hb, ?_⟩
      rcases hb with ⟨s, rfl⟩ | rfl | ⟨c, _, name, args, _, rfl⟩ <;> simp [Event.isNetwork]
  · intro hf
    unfold PipelineResult.failed at hf
    unfold deployRun at hf ⊢
    cases herr : (runStages (deployStages w dryRun verbose cfg projectName project remoteName)
        []).err with
    | none => simp [herr] at hf
    | some e =>
      simp only [herr] at hf
      rcases hcases with h | h | h | h | h | h | h | h <;> rw [h] at hf ⊢ <;>
        simp [Stage.all] at hf ⊢

/-- Claim C6 fails as stated: in dry-run mode, with the validated scenario
configuration, an allowed remote and an output directory that passes the path
guard but has not been built, `deployProject` stops at the existence check
with an error; the rsync command line and the post-commands are not printed. -/
theorem deployProject_dry_run_missing_dir :
    (Config.Validate missingDirWorld siteConfig []).2 = none ∧
    ("site", siteProject) ∈ siteConfig.Projects ∧
    "prod" ∈ siteProject.Remotes ∧
    outputPathGuard missingDirWorld.cwd siteProject = .ok "/app/dist" ∧
    deployProject missingDirWorld true false siteConfig "site" siteProject "prod" [] =
      ([Event.print "Executing: npm ci\n", Event.print "Executing: npm run build\n",
        Event.stat "/app/dist"],
       some "output directory check failed: output directory does not exist: /app/dist") := by
  decide

/-- Claim C6, amended. In dry-run mode, for a validated configuration, a
project of it, a remote allowed for it and an output directory that passes the
path guard and exists when it is probed, `deployProject` succeeds and its
history is the full report: every build command, the existence probes, the
rsync command line, every remote post-command and every local post-command,
in that order, then the success line. -/
theorem deployProject_dry_run_report (w : World) (verbose : Bool) (cfg : Config)
    (projectName : String) (project : Project) (remoteName : String) (t0 : Trace)
    (outputPath : String)
    (hv : (cfg.Validate w t0).2 = none)
    (hp : (projectName, project) ∈ cfg.Projects)
    (hr : remoteName ∈ project.Remotes)
    (hg : outputPathGuard w.cwd project = .ok outputPath)
    (hex : ∀ t, w.stat t outputPath ≠ StatResult.notExist)
    (hexAbs : ∀ t a, Abs w.cwd outputPath = .ok a → w.stat t a ≠ StatResult.notExist) :
    ∃ remote outputAbsPath, cfg.Remotes.lookup remoteName = some remote ∧
      Abs w.cwd outputPath = .ok outputAbsPath ∧
      deployProject w true verbose cfg projectName project remoteName [] =
        (dryRunReport verbose projectName project remoteName remote outputPath outputAbsPath,
         none) := by
  obtain ⟨remote, hl⟩ := Validate_lookup w cfg t0 hv projectName project hp remoteName hr
  obtain ⟨-, -, pa, oa, -, ha, -⟩ := outputPathGuard_abs w.cwd project outputPath hg
  refine ⟨remote, oa, hl, ha, ?_⟩
  have hc : project.Remotes.contains remoteName = true := by simpa using hr
  have h1 := hex
  have h2 := fun t => hexAbs t oa ha
  unfold deployProject dryRunReport
  simp only [hc, hl, Bool.not_true, Bool.false_eq_true, if_false,
    RsyncClient.CheckRsyncAvailable, if_true,
    ExecuteCommands_dry_ok w ⟨true, verbose⟩ rfl, hg, Executor.CheckOutputDir, h1,
    RsyncClient.Sync, RsyncClient.validatePaths, ha, h2, Bool.or_true]
  cases verbose <;> cases hpc : remote.PostCommands <;> cases hlc : project.PostCommands <;>
    simp [SshClient.ExecuteCommands, SshClient.wouldExecute,
      ExecuteCommands_dry_ok w ⟨true, _⟩ rfl, printIf]

/-- Witness of claim C6 (amended): the scenario in dry-run and verbose mode,
in a world where the output directory exists. -/
theorem deployProject_dry_run_report_witness :
    (Config.Validate happyWorld siteConfig []).2 = none ∧
    deployProject happyWorld true true siteConfig "site" siteProject "prod" [] =
      (dryRunReport true "site" siteProject "prod" prodRemote "/app/dist" "/app/dist",
       none) := by
  obtain ⟨remote, outputAbsPath, hl, ha, h⟩ :=
    deployProject_dry_run_report happyWorld true siteConfig "site" siteProject "prod" []
      "/app/dist" (by decide) (by decide) (by decide) (by decide)
      (fun _ hs => StatResult.noConfusion hs) (fun _ _ _ hs => StatResult.noConfusion hs)
  have h1 : remote = prodRemote := by
    have : siteConfig.Remotes.lookup "prod" = some prodRemote := by decide
    rw [this] at hl
    exact (Option.some.inj hl).symm
  have h2 : outputAbsPath = "/app/dist" := by
    have : Abs happyWorld.cwd "/app/dist" = .ok "/app/dist" := by decide
    rw [this] at ha
    exact (Except.ok.inj ha).symm
  subst h1 h2
  exact ⟨by decide, h⟩

/-- Remark on the precondition of the path guard theorem: the hypothesis of a
non-empty project path cannot be dropped. With an empty path, which
`Project.Validate` rejects so that `deployProject` never receives it, the
output directory `/etc` and the working directory `/et`, the string-prefix
test would accept `/etc` against the root `/et`. -/
theorem outputPathGuard_sibling_accepted :
    outputPathGuard (.ok "/et") emptyPathProject = .ok "/etc" ∧
    Abs (.ok "/et") emptyPathProject.Path = .ok "/et" ∧
    Abs (.ok "/et") "/etc" = .ok "/etc" ∧
    stringsHasPrefix "/etc" "/et" = true ∧
    pathWithin "/et" "/etc" = false := by
  decide

/-- Claim C2. For every project path that is not empty, as `Project.Validate`
guarantees for every project `deployProject` receives, every `OutputDir` and
an absolute working directory, when the path guard of `deployProject` returns
no error the absolute output path lies within the absolute project path: it
is that path itself or that path followed by a separator and further
segments, never a sibling sharing the root as a string prefix; both are the
rendering of element lists, the elements of the root being a prefix of those
of the output path. -/
theorem outputPathGuard_within (cwd : Except String String) (project : Project)
    (outputPath : String)
    (hpath : project.Path ≠ "")
    (hcwd : ∀ wd, cwd = .ok wd → IsAbs wd = true)
    (hg : outputPathGuard cwd project = .ok outputPath) :
    ∃ projectAbsPath outputAbsPath,
      Abs cwd project.Path = .ok projectAbsPath ∧
      Abs cwd outputPath = .ok outputAbsPath ∧
      pathWithin projectAbsPath outputAbsPath = true ∧
      ∃ rootElems extra : List (List Char),
        (∀ e ∈ rootElems ++ extra, isName e = true ∧ Separator ∉ e) ∧
        projectAbsPath.data = Separator :: List.intercalate [Separator] rootElems ∧
        outputAbsPath.data =
          Separator :: List.intercalate [Separator] (rootElems ++ extra) := by
  obtain ⟨hno, hop, pa, oa, hpa, hoa, -⟩ := outputPathGuard_abs cwd project outputPath hg
  obtain ⟨n, hn, h1, h2⟩ :=
    outputPathGuard_buffers cwd project outputPath pa oa hpath hcwd hop hpa hoa
  obtain ⟨R, E, hall, hr, he⟩ :=
    render_within n hn project.OutputDir.data (dotdot_not_mem_pathElements _ hno)
  rw [← h1] at hr
  rw [← h2] at he
  exact ⟨pa, oa, hpa, hoa, pathWithin_of_elems pa oa R E hall hr he, R, E, hall, hr, he⟩

/-- Witness of claim C2: project `site` (`path=/app`, `outputDir=dist`),
which passes `Project.Validate`, in the working directory `/home/u`. -/
theorem outputPathGuard_within_witness :
    (Project.Validate happyWorld siteProject []).2 = none ∧
    outputPathGuard (.ok "/home/u") siteProject = .ok "/app/dist" ∧
    ∃ projectAbsPath outputAbsPath,
      Abs (.ok "/home/u") siteProject.Path = .ok projectAbsPath ∧
      Abs (.ok "/home/u") "/app/dist" = .ok outputAbsPath ∧
      pathWithin projectAbsPath outputAbsPath = true ∧
      ∃ rootElems extra : List (List Char),
        (∀ e ∈ rootElems ++ extra, isName e = true ∧ Separator ∉ e) ∧
        projectAbsPath.data = Separator :: List.intercalate [Separator] rootElems ∧
        outputAbsPath.data =
          Separator :: List.intercalate [Separator] (rootElems ++ extra) :=
  ⟨by decide, by decide,
   outputPathGuard_within (.ok "/home/u") siteProject "/app/dist"
     (Project_Validate_path_ne happyWorld siteProject [] (by decide))
     (by
       intro wd h
       cases h
       decide)
     (by decide)⟩

/-- Claim C11 fails as stated: with the known-hosts file present at
`~/.ssh/known_hosts` but failing to load, and likewise with the home
directory unresolvable, `getSSHConfig` returns a configuration whose host-key
policy is unconditional acceptance. -/
theorem getSSHConfig_insecure_fallback :
    brokenKnownHostsWorld.stat [] "/home/u/.ssh/known_hosts" = StatResult.found ∧
    (SshClient.getSSHConfig brokenKnownHostsWorld ⟨false, false⟩ "user" []).2 =
      .ok { User := "user",
            Auth := [AuthMethod.agent "/tmp/agent.sock",
                     AuthMethod.publicKeys ⟨"/home/u/.ssh/id_rsa"⟩],
            HostKeyCallback := HostKeyCallback.insecureIgnoreHostKey } ∧
    (SshClient.getSSHConfig noHomeWorld ⟨false, false⟩ "user" []).2 =
      .ok { User := "user",
            Auth := [AuthMethod.agent "/tmp/agent.sock"],
            HostKeyCallback := HostKeyCallback.insecureIgnoreHostKey } := by
  decide

/-- Claim C11, amended. The configuration `getSSHConfig` returns carries the
known-hosts policy exactly when the home directory resolves, the probe of
`~/.ssh/known_hosts` does not report the file absent and `knownhosts.New`
loads the file; it carries unconditional acceptance in every other case: file
absent, file present but failing to load, or home directory unresolvable. -/
theorem getSSHConfig_host_key_policy (w : World) (c : SshClient) (user : String)
    (t : Trace) :
    ((c.getSSHConfig w user t).2 =
      match (c.getAuthMethods w (c.getHostKeyCallback w t).1).2 with
      | .error err => .error err
      | .ok auth =>
        .ok { User := user, Auth := auth, HostKeyCallback := installedHostKeyPolicy w t }) ∧
    (∀ path, installedHostKeyPolicy w t = HostKeyCallback.knownHosts path ↔
      ∃ home, w.homeDir = .ok home ∧ path = Join [home, ".ssh", "known_hosts"] ∧
        w.stat t path ≠ StatResult.notExist ∧
        w.knownHostsNew (t ++ [Event.stat path]) path = none) ∧
    (installedHostKeyPolicy w t = HostKeyCallback.insecureIgnoreHostKey ↔
      (∃ err, w.homeDir = .error err) ∨
      ∃ home, w.homeDir = .ok home ∧
        (w.stat t (Join [home, ".ssh", "known_hosts"]) = StatResult.notExist ∨
         ∃ err, w.knownHostsNew (t ++ [Event.stat (Join [home, ".ssh", "known_hosts"])])
           (Join [home, ".ssh", "known_hosts"]) = some err)) := by
  refine ⟨?_, ?_, ?_⟩
  · have h := getHostKeyCallback_installed w c t
    unfold SshClient.getSSHConfig
    generalize c.getHostKeyCallback w t = r at h ⊢
    obtain ⟨t1, hk⟩ := r
    simp only at h ⊢
    generalize c.getAuthMethods w t1 = a
    obtain ⟨t2, auth⟩ := a
    cases auth with
    | error e => rfl
    | ok auth =>
      simp only
      rw [← h]
      cases hk <;> rfl
  · intro path
    unfold installedHostKeyPolicy
    cases hh : w.homeDir with
    | error e => simp
    | ok home =>
      simp only
      by_cases hs : w.stat t (Join [home, ".ssh", "known_hosts"]) = StatResult.notExist
      · simp only [hs, if_true]
        constructor
        · intro h; cases h
        · rintro ⟨home2, h1, rfl, h3, -⟩
          cases h1
          exact absurd hs h3
      · simp only [hs, if_false]
        cases hk : w.knownHostsNew (t ++ [Event.stat (Join [home, ".ssh", "known_hosts"])])
            (Join [home, ".ssh", "known_hosts"]) with
        | none =>
          constructor
          · intro h
            cases h
            exact ⟨home, rfl, rfl, hs, hk⟩
          · rintro ⟨home2, h1, rfl, -, -⟩
            cases h1
            rfl
        | some e =>
          constructor
          · intro h; cases h
          · rintro ⟨home2, h1, rfl, -, h4⟩
            cases h1
            rw [hk] at h4
            cases h4
  · unfold installedHostKeyPolicy
    cases hh : w.homeDir with
    | error e => simp
    | ok home =>
      simp only
      by_cases hs : w.stat t (Join [home, ".ssh", "known_hosts"]) = StatResult.notExist
      · simp only [hs, if_true, true_iff]
        exact Or.inr ⟨home, rfl, Or.inl hs⟩
      · simp only [hs, if_false]
        cases hk : w.knownHostsNew (t ++ [Event.stat (Join [home, ".ssh", "known_hosts"])])
            (Join [home, ".ssh", "known_hosts"]) with
        | none =>
          constructor
          · intro h; cases h
          · rintro (⟨err, h⟩ | ⟨home2, h1, h2 | ⟨err, h2⟩⟩)
            · cases h
            · cases h1; exact absurd h2 hs
            · cases h1; rw [hk] at h2; cases h2
        | some e =>
          simp only [true_iff]
          exact Or.inr ⟨home, rfl, Or.inr ⟨e, hk⟩⟩

end Deeployer
